import Mathlib

/-!
Shallow embedding of the tetodb document-store engine (Go sources:
`engine/storage.go`, `engine/db.go`, `engine/query.go`, and the collection
implementation) together with proofs checking the natural-language
specification against it.

Modelling conventions:
* Go's `map[string]interface{}` values (JSON-like documents) become the
  inductive `Value`; since Go mutual recursion through `List` blocks
  `deriving DecidableEq`, arrays and objects carry their own list types
  `VList` / `VObj`.
* JSON numbers (Go `float64`) are modelled as exact rationals; `Value.goFormat`
  models `fmt.Sprintf("%v")` (integral values print without a decimal point,
  map keys print in sorted order, `nil` prints `<nil>`).
* Go maps become association lists; `getKey`, `setKey`, `removeKey` model map
  lookup, assignment and `delete`.  Map iteration order, unspecified in Go, is
  modelled as list order.
* `Storage.Append` either succeeds or fails with an I/O error; each mutating
  operation takes a flag `ok : Bool` telling whether its appends succeed.
-/

namespace TetoDB

-- JSON-like document values (Go `interface{}` after JSON decoding):
-- strings, numbers (`float64`, modelled as rationals), booleans, `nil`,
-- arrays and nested objects.
mutual
inductive Value where
  | str (s : String)
  | num (q : Rat)
  | vbool (b : Bool)
  | null
  | arr (xs : VList)
  | obj (fs : VObj)
deriving DecidableEq
inductive VList where
  | nil
  | cons (v : Value) (tl : VList)
deriving DecidableEq
inductive VObj where
  | nil
  | cons (k : String) (v : Value) (tl : VObj)
deriving DecidableEq
end

/-- Decimal digits of `n / d` (with `n < d`), as printed by Go for the
fractional part of a float; `fuel` bounds the expansion (JSON/float values
always terminate). -/
def decDigits : Nat → Nat → Nat → String
  | 0, _, _ => ""
  | _ + 1, 0, _ => ""
  | fuel + 1, n, d => toString (n * 10 / d) ++ decDigits fuel (n * 10 % d) d

/-- `fmt.Sprintf("%v")` of a positive non-integral number. -/
def goFormatNumPos (q : Rat) : String :=
  toString (q.num / (q.den : Int)) ++ "." ++ decDigits 64 (q.num.toNat % q.den) q.den

/-- `fmt.Sprintf("%v")` of a Go number: integral values print with no decimal
point (Go prints `float64(25)` as `"25"`). -/
def goFormatNum (q : Rat) : String :=
  if q.den = 1 then toString q.num
  else if q < 0 then "-" ++ goFormatNumPos (-q)
  else goFormatNumPos q

/-- Lexicographic comparison of character lists (Go compares strings
byte-wise; modelled here on code points).  Written out explicitly because
Lean's builtin `String` order does not reduce in the kernel. -/
def charListLt : List Char → List Char → Bool
  | [], [] => false
  | [], _ :: _ => true
  | _ :: _, [] => false
  | c1 :: t1, c2 :: t2 =>
    if c1 < c2 then true
    else if c2 < c1 then false
    else charListLt t1 t2

/-- Go's `<` on strings: lexicographic. -/
def strLt (a b : String) : Bool :=
  charListLt a.data b.data

/-- Insert a `(key, formatted)` pair into a key-sorted list (Go's `fmt`
prints map keys in sorted order). -/
def insertPairByKey (p : String × String) : List (String × String) → List (String × String)
  | [] => [p]
  | q :: tl => if strLt q.1 p.1 then q :: insertPairByKey p tl else p :: q :: tl

/-- Sort `(key, formatted)` pairs by key. -/
def sortPairsByKey : List (String × String) → List (String × String)
  | [] => []
  | p :: tl => insertPairByKey p (sortPairsByKey tl)

-- `fmt.Sprintf("%v", x)` over the document value model: strings print as-is,
-- booleans as `true` / `false`, `nil` as `<nil>`, slices as `[e1 e2 ...]` and
-- maps as `map[k1:v1 k2:v2 ...]` with keys sorted.
mutual
def Value.goFormat : Value → String
  | .str s => s
  | .num q => goFormatNum q
  | .vbool b => if b then "true" else "false"
  | .null => "<nil>"
  | .arr xs => "[" ++ String.intercalate " " (VList.goFormatList xs) ++ "]"
  | .obj fs =>
      "map[" ++ String.intercalate " "
        ((sortPairsByKey (VObj.goFormatEntries fs)).map (fun kv => kv.1 ++ ":" ++ kv.2)) ++ "]"
def VList.goFormatList : VList → List String
  | .nil => []
  | .cons v tl => Value.goFormat v :: VList.goFormatList tl
def VObj.goFormatEntries : VObj → List (String × String)
  | .nil => []
  | .cons k v tl => (k, Value.goFormat v) :: VObj.goFormatEntries tl
end

/-- The kind ("shape") of a value: string, number, boolean, null, array or
object. -/
inductive VKind where
  | str | num | vbool | null | arr | obj
deriving DecidableEq

/-- Kind of a `Value`. -/
def Value.kind : Value → VKind
  | .str _ => .str
  | .num _ => .num
  | .vbool _ => .vbool
  | .null => .null
  | .arr _ => .arr
  | .obj _ => .obj

/-- A document: Go `map[string]interface{}`, modelled as an association list. -/
abbrev Doc := List (String × Value)

/-- Go map lookup `m[k]`. -/
def getKey {α : Type} (l : List (String × α)) (k : String) : Option α :=
  match l with
  | [] => none
  | (k2, v) :: tl => if k2 = k then some v else getKey tl k

/-- Go map assignment `m[k] = v`: replaces the entry if the key is present,
otherwise adds a new entry. -/
def setKey {α : Type} (l : List (String × α)) (k : String) (v : α) : List (String × α) :=
  match l with
  | [] => [(k, v)]
  | (k2, v2) :: tl => if k2 = k then (k, v) :: tl else (k2, v2) :: setKey tl k v

/-- Go `delete(m, k)`. -/
def removeKey {α : Type} (l : List (String × α)) (k : String) : List (String × α) :=
  match l with
  | [] => []
  | (k2, v2) :: tl => if k2 = k then removeKey tl k else (k2, v2) :: removeKey tl k

/-- Keys of an association list. -/
def keys {α : Type} (l : List (String × α)) : List String :=
  l.map Prod.fst

/-! ## Query matcher (`engine/query.go`) -/

/-- `valuesMatch` (`query.go`): `reflect.DeepEqual` first (structural equality
over decoded JSON values), then fall back to comparing the `%v` strings. -/
def valuesMatch (docValue filterValue : Value) : Bool :=
  if docValue = filterValue then true
  else docValue.goFormat == filterValue.goFormat

/-- `MatchesFilter` (`query.go`): the empty filter matches everything;
otherwise every filter key must exist in the document and its value must
match (conjunction, short-circuiting on the first failure). -/
def MatchesFilter (doc filt : Doc) : Bool :=
  filt.all (fun kv =>
    match getKey doc kv.1 with
    | none => false
    | some dv => valuesMatch dv kv.2)

/-- `toFloat64` (`query.go`): numeric values (Go `float64`, `int`, ...) convert;
everything else (strings included) does not. -/
def toFloat64 : Value → Option Rat
  | .num q => some q
  | _ => none

/-- `compareValues` (`query.go`): numeric comparison when both values are
numbers, otherwise lexicographic comparison of their `%v` strings
(`aStr > bStr` is `strLt bStr aStr`). -/
def compareValues (a b : Value) : Int :=
  match toFloat64 a, toFloat64 b with
  | some x, some y => if x < y then -1 else if x > y then 1 else 0
  | _, _ =>
    let as := a.goFormat
    let bs := b.goFormat
    if strLt as bs then -1 else if strLt bs as then 1 else 0

/-! ## Storage records (`engine/storage.go`) -/

/-- One line of the append-only log; `doc = none` is a tombstone
(Go `Doc: nil`). -/
structure StorageRecord where
  collection : String
  id : String
  doc : Option Doc
deriving DecidableEq

/-- Errors surfaced by the engine: duplicate key, not found, and I/O failure
of the storage layer. -/
inductive DBError where
  | duplicateKey (id : String)
  | notFound (id : String)
  | ioError
deriving DecidableEq

/-! ## Collection operations (the `Collection` methods)

Each operation returns the collection's document map after the call, the
records whose append succeeded, and the call's result.  `ok : Bool` tells
whether `storage.Append` succeeds (a failing append durably writes
nothing). -/

/-- The document map of one collection: Go `map[string]map[string]interface{}`. -/
abbrev CollDocs := List (String × Doc)

instance {ε α : Type} [DecidableEq ε] [DecidableEq α] : DecidableEq (Except ε α) := fun a b =>
  match a, b with
  | .ok x, .ok y => if h : x = y then .isTrue (by rw [h]) else .isFalse (by simp [h])
  | .ok _, .error _ => .isFalse (by simp)
  | .error _, .ok _ => .isFalse (by simp)
  | .error e, .error f => if h : e = f then .isTrue (by rw [h]) else .isFalse (by simp [h])

/-- Outcome of a single-document collection operation. -/
structure CollOut (α : Type) where
  documents : CollDocs
  log : List StorageRecord
  res : Except DBError α
deriving DecidableEq

/-- Outcome of `UpdateMany` / `DeleteMany`: Go returns `(count, err)`. -/
structure ManyOut where
  documents : CollDocs
  log : List StorageRecord
  count : Nat
  err : Option DBError
deriving DecidableEq

/-- The id `Insert` uses: `fmt.Sprintf("%v", doc["id"])` when the document has
an `id` field, otherwise the freshly generated UUID string `genId`. -/
def insertKey (doc : Doc) (genId : String) : String :=
  match getKey doc "id" with
  | some idVal => idVal.goFormat
  | none => genId

/-- The document `Insert` stores: unchanged when it already has an `id` field,
otherwise with `doc["id"] = genId` set. -/
def insertStored (doc : Doc) (genId : String) : Doc :=
  match getKey doc "id" with
  | some _ => doc
  | none => setKey doc "id" (.str genId)

/-- `Collection.Insert`: derive the id (generating one if absent), reject a
duplicate id, otherwise store in memory, append the record, and roll the
in-memory insertion back (`delete(c.documents, id)`) if the append fails. -/
def Insert (ok : Bool) (name : String) (docs : CollDocs) (doc : Doc) (genId : String) :
    CollOut String :=
  let id := insertKey doc genId
  let stored := insertStored doc genId
  if (getKey docs id).isSome then
    ⟨docs, [], .error (.duplicateKey id)⟩
  else
    let docs2 := setKey docs id stored
    if ok then ⟨docs2, [⟨name, id, some stored⟩], .ok id⟩
    else ⟨removeKey docs2 id, [], .error .ioError⟩

/-- The shallow merge `Update` performs: each key of `upd` is written into
`existing` (Go `existingDoc[key] = value` over `range update`). -/
def mergeDoc (existing upd : Doc) : Doc :=
  upd.foldl (fun d kv => setKey d kv.1 kv.2) existing

/-- `Collection.Update`: not-found error if the id is absent; otherwise merge
the update into the existing document in place, force `doc["id"] = id`, and
append the merged document.  The in-memory merge happens before the append
and is kept even when the append fails. -/
def Update (ok : Bool) (name : String) (docs : CollDocs) (id : String) (upd : Doc) :
    CollOut Unit :=
  match getKey docs id with
  | none => ⟨docs, [], .error (.notFound id)⟩
  | some existing =>
    let merged := setKey (mergeDoc existing upd) "id" (.str id)
    let docs2 := setKey docs id merged
    if ok then ⟨docs2, [⟨name, id, some merged⟩], .ok ()⟩
    else ⟨docs2, [], .error .ioError⟩

/-- `Collection.Delete`: not-found error if absent; otherwise remove from
memory, then append a tombstone.  The removal happens before the append and
is kept even when the append fails. -/
def Delete (ok : Bool) (name : String) (docs : CollDocs) (id : String) :
    CollOut Unit :=
  match getKey docs id with
  | none => ⟨docs, [], .error (.notFound id)⟩
  | some _ =>
    let docs2 := removeKey docs id
    if ok then ⟨docs2, [⟨name, id, none⟩], .ok ()⟩
    else ⟨docs2, [], .error .ioError⟩

/-- `Collection.UpdateMany`: for every document matching the filter, merge the
update in place, force the id, append the merged record, and count it;
a failing append returns the count so far with the current document already
mutated in memory. -/
def UpdateMany (ok : Bool) (name : String) (filt upd : Doc) : CollDocs → ManyOut
  | [] => ⟨[], [], 0, none⟩
  | (id, d) :: tl =>
    if MatchesFilter d filt then
      let merged := setKey (mergeDoc d upd) "id" (.str id)
      if ok then
        let r := UpdateMany ok name filt upd tl
        ⟨(id, merged) :: r.documents, ⟨name, id, some merged⟩ :: r.log, r.count + 1, r.err⟩
      else ⟨(id, merged) :: tl, [], 0, some .ioError⟩
    else
      let r := UpdateMany ok name filt upd tl
      ⟨(id, d) :: r.documents, r.log, r.count, r.err⟩

/-- The deletion loop of `Collection.DeleteMany`: remove each collected id
from memory, then append its tombstone; a failing append stops the loop with
the current document already removed from memory. -/
def deleteManyLoop (ok : Bool) (name : String) : List String → CollDocs → ManyOut
  | [], docs => ⟨docs, [], 0, none⟩
  | id :: tl, docs =>
    let docs2 := removeKey docs id
    if ok then
      let r := deleteManyLoop ok name tl docs2
      ⟨r.documents, ⟨name, id, none⟩ :: r.log, r.count + 1, r.err⟩
    else ⟨docs2, [], 0, some .ioError⟩

/-- `Collection.DeleteMany`: collect the matching ids, then delete each. -/
def DeleteMany (ok : Bool) (name : String) (filt : Doc) (docs : CollDocs) : ManyOut :=
  deleteManyLoop ok name ((docs.filter (fun e => MatchesFilter e.2 filt)).map Prod.fst) docs

/-! ## Database level (`engine/db.go`) -/

/-- The database registry: collection name to document map.  An entry may be
present with an empty map (a lazily created empty collection). -/
abbrev DBState := List (String × CollDocs)

/-- `Database.GetCollection`: return the existing collection or lazily create
and register an empty one; never fails, appends nothing to the log. -/
def GetCollection (db : DBState) (name : String) : DBState × CollDocs :=
  match getKey db name with
  | some docs => (db, docs)
  | none => (setKey db name [], [])

/-- `Database.ListCollections`: the registered collection names. -/
def ListCollections (db : DBState) : List String :=
  db.map Prod.fst

/-- The `"collections"` entry of `Database.Stats`: number of registered
collections. -/
def statsCollections (db : DBState) : Nat :=
  db.length

/-- The `"collection_stats"` entry of `Database.Stats`: per-collection
document counts. -/
def statsPerCollection (db : DBState) : List (String × Nat) :=
  db.map (fun e => (e.1, e.2.length))

/-- The `"documents"` entry of `Database.Stats`: total document count. -/
def statsDocuments (db : DBState) : Nat :=
  (db.map (fun e => e.2.length)).sum

/-- One step of the replay fold in `loadFromDisk`: a tombstone deletes the id
from the record's collection, any other record stores/overwrites the
document (the collection's entry in the temporary map is created on first
contact either way). -/
def replayStep (temp : DBState) (r : StorageRecord) : DBState :=
  let cur := (getKey temp r.collection).getD []
  match r.doc with
  | none => setKey temp r.collection (removeKey cur r.id)
  | some d => setKey temp r.collection (setKey cur r.id d)

/-- `Database.loadFromDisk`: fold all records in file order, then materialize
one collection per name that has at least one surviving document. -/
def loadFromDisk (records : List StorageRecord) : DBState :=
  (records.foldl replayStep []).filter (fun e => !e.2.isEmpty)

/-- The records `Database.Compact` writes: one record per currently-surviving
document across all collections. -/
def compactRecords (db : DBState) : List StorageRecord :=
  db.flatMap (fun e => e.2.map (fun d => ⟨e.1, d.1, some d.2⟩))

/-- The per-document deletion loop of `Database.DropCollection` (each step is
a `Collection.Delete`; the loop aborts on the first error). -/
def dropLoop (ok : Bool) (name : String) : List String → CollDocs →
    CollDocs × List StorageRecord × Option DBError
  | [], docs => (docs, [], none)
  | id :: tl, docs =>
    let r := Delete ok name docs id
    match r.res with
    | .error e => (r.documents, r.log, some e)
    | .ok _ =>
      let rest := dropLoop ok name tl r.documents
      (rest.1, r.log ++ rest.2.1, rest.2.2)

/-- `Database.DropCollection`: no-op for an unknown name; otherwise delete
every document (tombstoning each), and only on full success remove the
collection from the registry.  On a failed delete the mutated collection
stays registered. -/
def DropCollection (ok : Bool) (db : DBState) (name : String) :
    DBState × List StorageRecord × Option DBError :=
  match getKey db name with
  | none => (db, [], none)
  | some docs =>
    let r := dropLoop ok name (docs.map Prod.fst) docs
    match r.2.2 with
    | some e => (setKey db name r.1, r.2.1, some e)
    | none => (removeKey db name, r.2.1, none)

/-! ## Mutation sequences against a fresh database

`Op` is one engine call (the collection is fetched with `GetCollection`,
which registers it if new); `runOps` executes a sequence with every append
succeeding, accumulating the log exactly as the file receives it. -/

/-- One mutating engine call.  `genId` stands for the UUID `Insert` would
generate when the document carries no id. -/
inductive Op where
  | ins (coll : String) (doc : Doc) (genId : String)
  | upd (coll : String) (id : String) (u : Doc)
  | updMany (coll : String) (filt u : Doc)
  | del (coll : String) (id : String)
  | delMany (coll : String) (filt : Doc)

/-- Apply one call to the database (all appends succeeding), returning the new
registry and the records appended to the log. -/
def applyOp (db : DBState) : Op → DBState × List StorageRecord
  | .ins c doc g =>
    let p := GetCollection db c
    let r := Insert true c p.2 doc g
    (setKey p.1 c r.documents, r.log)
  | .upd c id u =>
    let p := GetCollection db c
    let r := Update true c p.2 id u
    (setKey p.1 c r.documents, r.log)
  | .updMany c filt u =>
    let p := GetCollection db c
    let r := UpdateMany true c filt u p.2
    (setKey p.1 c r.documents, r.log)
  | .del c id =>
    let p := GetCollection db c
    let r := Delete true c p.2 id
    (setKey p.1 c r.documents, r.log)
  | .delMany c filt =>
    let p := GetCollection db c
    let r := DeleteMany true c filt p.2
    (setKey p.1 c r.documents, r.log)

/-- Run a sequence of calls from a given registry and log. -/
def runOps : DBState × List StorageRecord → List Op → DBState × List StorageRecord
  | s, [] => s
  | (db, log), op :: tl =>
    let p := applyOp db op
    runOps (p.1, log ++ p.2) tl

/-- The materialized document map of collection `c` (empty when the collection
is not registered). -/
def docsOf (db : DBState) (c : String) : CollDocs :=
  (getKey db c).getD []

/-! ## `SortDocuments` (`engine/query.go`)

The Go code is a bounded bubble sort: pass `i` (for `i = 0 .. n-2`) compares
adjacent positions `j, j+1` for `j = 0 .. n-i-2` and swaps when the direction
says so; a comparison in which either side lacks the sort field does
nothing (`continue`).  `bubbleInner swap f` is the inner loop with `f`
comparisons left; `bubbleOuter swap m` runs inner passes with `m, m-1, ..., 1`
comparisons. -/

/-- Inner bubble pass, `f` comparisons remaining. -/
def bubbleInner {α : Type} (swap : α → α → Bool) : Nat → List α → List α
  | 0, l => l
  | _ + 1, [] => []
  | _ + 1, [x] => [x]
  | f + 1, x :: y :: tl =>
    if swap x y then y :: bubbleInner swap f (x :: tl)
    else x :: bubbleInner swap f (y :: tl)

/-- Outer bubble loop: passes with `m, m-1, ..., 1` comparisons. -/
def bubbleOuter {α : Type} (swap : α → α → Bool) : Nat → List α → List α
  | 0, l => l
  | m + 1, l => bubbleOuter swap m (bubbleInner swap (m + 1) l)

/-- The swap test of `SortDocuments`: skip when either side lacks the field;
otherwise swap on `compareValues < 0` for `"desc"` and `> 0` otherwise. -/
def sortSwap (field direction : String) (d1 d2 : Doc) : Bool :=
  match getKey d1 field, getKey d2 field with
  | some v1, some v2 =>
    if direction = "desc" then compareValues v1 v2 < 0
    else compareValues v1 v2 > 0
  | _, _ => false

/-- `SortDocuments docs field direction` (`query.go`): bubble sort with
`n-1` passes, pass `i` doing `n-i-1` adjacent comparisons. -/
def SortDocuments (docs : List Doc) (field direction : String) : List Doc :=
  bubbleOuter (sortSwap field direction) (docs.length - 1) docs

/-- The merged document `UpdateMany` writes for a matching entry. -/
def manyMerged (upd : Doc) (id : String) (d : Doc) : Doc :=
  setKey (mergeDoc d upd) "id" (.str id)


/-- Identifier-field consistency: every stored document carries an `id` field
whose `%v` string equals its map key. -/
def IdConsistent (db : DBState) : Prop :=
  ∀ c id doc, getKey (docsOf db c) id = some doc →
    ∃ v, getKey doc "id" = some v ∧ v.goFormat = id


/-- The numeric sort key of a document (only meaningful when the field holds a
number). -/
def numKey (field : String) (d : Doc) : Rat :=
  match getKey d field with
  | some (.num q) => q
  | _ => 0

section AssocLemmas

variable {α : Type}

theorem getKey_setKey_self (l : List (String × α)) (k : String) (v : α) :
    getKey (setKey l k v) k = some v := by
  induction l with
  | nil => simp [setKey, getKey]
  | cons e tl ih =>
    obtain ⟨k2, v2⟩ := e
    by_cases h : k2 = k <;> simp [setKey, getKey, h, ih]

theorem getKey_setKey_ne (l : List (String × α)) {k k2 : String} (v : α) (h : k ≠ k2) :
    getKey (setKey l k v) k2 = getKey l k2 := by
  induction l with
  | nil => simp [setKey, getKey, h]
  | cons e tl ih =>
    obtain ⟨k3, v3⟩ := e
    by_cases h3 : k3 = k
    · subst h3
      simp [setKey, getKey, h]
    · simp only [setKey, if_neg h3]
      by_cases h4 : k3 = k2 <;> simp [getKey, h4, ih]

theorem getKey_removeKey_self (l : List (String × α)) (k : String) :
    getKey (removeKey l k) k = none := by
  induction l with
  | nil => simp [removeKey, getKey]
  | cons e tl ih =>
    obtain ⟨k2, v2⟩ := e
    by_cases h : k2 = k <;> simp [removeKey, h, getKey, ih]

theorem getKey_removeKey_ne (l : List (String × α)) {k k2 : String} (h : k ≠ k2) :
    getKey (removeKey l k) k2 = getKey l k2 := by
  induction l with
  | nil => simp [removeKey, getKey]
  | cons e tl ih =>
    obtain ⟨k3, v3⟩ := e
    by_cases h3 : k3 = k
    · subst h3
      have h5 : k3 ≠ k2 := h
      simp [removeKey, getKey, h5, ih]
    · by_cases h4 : k3 = k2
      · subst h4
        simp [removeKey, getKey, h3, Ne.symm h, ih]
      · simp [removeKey, getKey, h3, h4, ih]

theorem removeKey_of_getKey_none (l : List (String × α)) (k : String)
    (h : getKey l k = none) : removeKey l k = l := by
  induction l with
  | nil => simp [removeKey]
  | cons e tl ih =>
    obtain ⟨k2, v2⟩ := e
    by_cases h2 : k2 = k
    · simp [getKey, h2] at h
    · simp [getKey, h2] at h
      simp [removeKey, h2, ih h]

theorem setKey_of_getKey_none (l : List (String × α)) (k : String) (v : α)
    (h : getKey l k = none) : setKey l k v = l ++ [(k, v)] := by
  induction l with
  | nil => simp [setKey]
  | cons e tl ih =>
    obtain ⟨k2, v2⟩ := e
    by_cases h2 : k2 = k
    · simp [getKey, h2] at h
    · simp [getKey, h2] at h
      simp [setKey, h2, ih h]

theorem removeKey_setKey_self (l : List (String × α)) (k : String) (v : α) :
    removeKey (setKey l k v) k = removeKey l k := by
  induction l with
  | nil => simp [setKey, removeKey]
  | cons e tl ih =>
    obtain ⟨k2, v2⟩ := e
    by_cases h : k2 = k <;> simp [setKey, removeKey, h, ih]

theorem getKey_setKey (l : List (String × α)) (k k2 : String) (v : α) :
    getKey (setKey l k v) k2 = if k = k2 then some v else getKey l k2 := by
  by_cases h : k = k2
  · subst h
    simp [getKey_setKey_self]
  · simp [h, getKey_setKey_ne l v h]

theorem getKey_removeKey (l : List (String × α)) (k k2 : String) :
    getKey (removeKey l k) k2 = if k = k2 then none else getKey l k2 := by
  by_cases h : k = k2
  · subst h
    simp [getKey_removeKey_self]
  · simp [h, getKey_removeKey_ne l h]

theorem setKey_setKey_same (l : List (String × α)) (k : String) (v w : α) :
    setKey (setKey l k v) k w = setKey l k w := by
  induction l with
  | nil => simp [setKey]
  | cons e tl ih =>
    obtain ⟨k2, v2⟩ := e
    by_cases h : k2 = k <;> simp [setKey, h, ih]

theorem getKey_eq_none_iff (l : List (String × α)) (k : String) :
    getKey l k = none ↔ k ∉ keys l := by
  induction l with
  | nil => simp [getKey, keys]
  | cons e tl ih =>
    obtain ⟨k2, v2⟩ := e
    by_cases h : k2 = k
    · subst h
      simp [getKey, keys]
    · simp [getKey, keys, h, ih, Ne.symm h]

theorem keys_setKey_of_getKey_none (l : List (String × α)) (k : String) (v : α)
    (h : getKey l k = none) : keys (setKey l k v) = keys l ++ [k] := by
  rw [setKey_of_getKey_none l k v h]
  simp [keys]

theorem keys_cons (e : String × α) (tl : List (String × α)) :
    keys (e :: tl) = e.1 :: keys tl := rfl

theorem keys_setKey_of_getKey_some (l : List (String × α)) (k : String) (v w : α)
    (h : getKey l k = some w) : keys (setKey l k v) = keys l := by
  induction l with
  | nil => simp [getKey] at h
  | cons e tl ih =>
    obtain ⟨k2, v2⟩ := e
    by_cases h2 : k2 = k
    · subst h2
      simp [setKey, keys]
    · simp [getKey, h2] at h
      simp only [setKey, if_neg h2, keys_cons]
      rw [ih h]

theorem nodup_keys_setKey (l : List (String × α)) (k : String) (v : α)
    (h : (keys l).Nodup) : (keys (setKey l k v)).Nodup := by
  cases hg : getKey l k with
  | none =>
    rw [keys_setKey_of_getKey_none l k v hg]
    have : k ∉ keys l := (getKey_eq_none_iff l k).mp hg
    simp [List.nodup_append, this, h]
  | some w => rw [keys_setKey_of_getKey_some l k v w hg]; exact h

theorem keys_removeKey_sublist (l : List (String × α)) (k : String) :
    (keys (removeKey l k)).Sublist (keys l) := by
  induction l with
  | nil => simp [removeKey, keys]
  | cons e tl ih =>
    obtain ⟨k2, v2⟩ := e
    by_cases h : k2 = k
    · simpa [removeKey, keys, h] using ih.trans (List.sublist_cons_self _ _)
    · simpa [removeKey, keys, h] using ih.cons₂ k2

theorem nodup_keys_removeKey (l : List (String × α)) (k : String)
    (h : (keys l).Nodup) : (keys (removeKey l k)).Nodup :=
  h.sublist (keys_removeKey_sublist l k)

theorem setKey_append_of_not_mem (pre l2 : List (String × α)) (k : String) (v : α)
    (h : k ∉ keys pre) : setKey (pre ++ l2) k v = pre ++ setKey l2 k v := by
  induction pre with
  | nil => simp
  | cons e tl ih =>
    obtain ⟨k2, v2⟩ := e
    rw [keys_cons, List.mem_cons] at h
    push_neg at h
    simp [setKey, Ne.symm h.1, ih h.2]

theorem getKey_append_left (pre l2 : List (String × α)) (k : String)
    (h : k ∉ keys pre) : getKey (pre ++ l2) k = getKey l2 k := by
  induction pre with
  | nil => simp
  | cons e tl ih =>
    obtain ⟨k2, v2⟩ := e
    rw [keys_cons, List.mem_cons] at h
    push_neg at h
    simp [getKey, Ne.symm h.1, ih h.2]

end AssocLemmas

/-! ## Operation-level lemmas -/

theorem updateMany_documents (name : String) (filt upd : Doc) (docs : CollDocs) :
    (UpdateMany true name filt upd docs).documents =
      docs.map (fun e =>
        (e.1, if MatchesFilter e.2 filt then manyMerged upd e.1 e.2 else e.2)) := by
  induction docs with
  | nil => simp [UpdateMany]
  | cons e tl ih =>
    obtain ⟨id, d⟩ := e
    by_cases h : MatchesFilter d filt <;> simp [UpdateMany, h, ih, manyMerged]

theorem deleteManyLoop_documents (name : String) (ids : List String) (docs : CollDocs) :
    (deleteManyLoop true name ids docs).documents = ids.foldl removeKey docs := by
  induction ids generalizing docs with
  | nil => simp [deleteManyLoop]
  | cons id tl ih => simp [deleteManyLoop, ih]

theorem getKey_map_entry {α β : Type} (l : List (String × α)) (g : String → α → β)
    (k : String) :
    getKey (l.map (fun e => (e.1, g e.1 e.2))) k = (getKey l k).map (g k) := by
  induction l with
  | nil => simp [getKey]
  | cons e tl ih =>
    obtain ⟨k2, v2⟩ := e
    by_cases h : k2 = k
    · subst h
      simp [getKey]
    · simp [getKey, h, ih]

theorem getKey_foldl_removeKey {α : Type} (ids : List String)
    (docs : List (String × α)) (id : String) :
    getKey (ids.foldl removeKey docs) id =
      if id ∈ ids then none else getKey docs id := by
  induction ids generalizing docs with
  | nil => simp
  | cons i tl ih =>
    by_cases h : id ∈ tl
    · simp [h, ih]
    · by_cases h2 : i = id
      · subst h2
        simp [h, ih, getKey_removeKey_self]
      · simp [h, h2, Ne.symm h2, ih, getKey_removeKey_ne _ h2]

/-! ## Claim C5: Insert rolls back on append failure -/

/-- C5: when the log append fails, `Insert` rolls the in-memory insertion
back: the collection map afterwards does not contain the new document and
equals the map before the call, nothing was appended, and the I/O error is
surfaced — insert is all-or-nothing with respect to observable state. -/
theorem c5_insert_rollback (name : String) (docs : CollDocs) (doc : Doc) (genId : String)
    (h : getKey docs (insertKey doc genId) = none) :
    (Insert false name docs doc genId).documents = docs ∧
    getKey (Insert false name docs doc genId).documents (insertKey doc genId) = none ∧
    (Insert false name docs doc genId).log = [] ∧
    (Insert false name docs doc genId).res = .error .ioError := by
  have hd : (Insert false name docs doc genId).documents = docs := by
    simp only [Insert, h, Option.isSome_none, Bool.false_eq_true, if_false, if_neg]
    rw [removeKey_setKey_self, removeKey_of_getKey_none _ _ h]
  refine ⟨hd, ?_, ?_, ?_⟩
  · rw [hd]; exact h
  · simp [Insert, h]
  · simp [Insert, h]

theorem c5_insert_rollback_witness :
    (Insert false "users" [("u1", [("id", Value.str "u1")])]
        [("id", Value.str "u2")] "g").documents = [("u1", [("id", Value.str "u1")])] ∧
    getKey (Insert false "users" [("u1", [("id", Value.str "u1")])]
        [("id", Value.str "u2")] "g").documents
        (insertKey [("id", Value.str "u2")] "g") = none ∧
    (Insert false "users" [("u1", [("id", Value.str "u1")])]
        [("id", Value.str "u2")] "g").log = [] ∧
    (Insert false "users" [("u1", [("id", Value.str "u1")])]
        [("id", Value.str "u2")] "g").res = .error .ioError :=
  c5_insert_rollback "users" _ _ _ (by decide)

/-! ## Claim C6: duplicate insert is rejected without any change -/

/-- C6: inserting a document whose present-or-generated id already identifies
a live document fails with the duplicate-key error and changes nothing: the
map is unchanged, the original document is still there, and no record is
appended. -/
theorem c6_insert_duplicate (ok : Bool) (name : String) (docs : CollDocs) (doc : Doc)
    (genId : String) (orig : Doc)
    (h : getKey docs (insertKey doc genId) = some orig) :
    (Insert ok name docs doc genId).documents = docs ∧
    getKey (Insert ok name docs doc genId).documents (insertKey doc genId) = some orig ∧
    (Insert ok name docs doc genId).log = [] ∧
    (Insert ok name docs doc genId).res = .error (.duplicateKey (insertKey doc genId)) := by
  refine ⟨?_, ?_, ?_, ?_⟩ <;> simp [Insert, h]

theorem c6_insert_duplicate_witness :
    (Insert true "users" [("u1", [("id", Value.str "u1")])]
        [("id", Value.str "u1"), ("x", Value.num 1)] "g").documents
      = [("u1", [("id", Value.str "u1")])] ∧
    getKey (Insert true "users" [("u1", [("id", Value.str "u1")])]
        [("id", Value.str "u1"), ("x", Value.num 1)] "g").documents
        (insertKey [("id", Value.str "u1"), ("x", Value.num 1)] "g")
      = some [("id", Value.str "u1")] ∧
    (Insert true "users" [("u1", [("id", Value.str "u1")])]
        [("id", Value.str "u1"), ("x", Value.num 1)] "g").log = [] ∧
    (Insert true "users" [("u1", [("id", Value.str "u1")])]
        [("id", Value.str "u1"), ("x", Value.num 1)] "g").res
      = .error (.duplicateKey (insertKey [("id", Value.str "u1"), ("x", Value.num 1)] "g")) :=
  c6_insert_duplicate true "users" _ _ "g" _ (by decide)

/-! ## Claim C2: which mutations apply in memory only after the append -/

/-- C2 counterexample: with a failing append, `Delete` has already removed the
document from the in-memory map and keeps it removed while surfacing the
I/O error — the state after the call differs from the state before it,
contradicting the claim that non-Insert mutations apply in memory only after
a successful append. -/
theorem c2_counterexample :
    (Delete false "users" [("u1", [("id", Value.str "u1")])] "u1").res
      = .error .ioError ∧
    (Delete false "users" [("u1", [("id", Value.str "u1")])] "u1").documents = [] ∧
    (Delete false "users" [("u1", [("id", Value.str "u1")])] "u1").documents
      ≠ [("u1", [("id", Value.str "u1")])] := by
  refine ⟨by decide, by decide, by decide⟩

/-- C2 amended: `Update`, `UpdateMany`, `Delete`, `DeleteMany` and the
per-document deletes of `DropCollection` apply the in-memory change BEFORE
the log append and do not roll it back when the append fails: after a failed
append the collection state reflects the mutation (merge applied / document
removed) while nothing was appended and the I/O error is surfaced.  Only
`Insert` rolls back. -/
theorem c2_mutation_before_append :
    (∀ name docs id upd existing, getKey docs id = some existing →
      Update false name docs id upd =
        ⟨setKey docs id (manyMerged upd id existing), [], .error .ioError⟩) ∧
    (∀ name filt upd pre id d post,
      (∀ e ∈ pre, MatchesFilter e.2 filt = false) → MatchesFilter d filt = true →
      UpdateMany false name filt upd (pre ++ (id, d) :: post) =
        ⟨pre ++ (id, manyMerged upd id d) :: post, [], 0, some .ioError⟩) ∧
    (∀ name docs id existing, getKey docs id = some existing →
      Delete false name docs id = ⟨removeKey docs id, [], .error .ioError⟩) ∧
    (∀ name filt docs id tl,
      (docs.filter (fun e => MatchesFilter e.2 filt)).map Prod.fst = id :: tl →
      DeleteMany false name filt docs = ⟨removeKey docs id, [], 0, some .ioError⟩) ∧
    (∀ db name id d tlDocs, getKey db name = some ((id, d) :: tlDocs) →
      DropCollection false db name =
        (setKey db name (removeKey ((id, d) :: tlDocs) id), [], some .ioError)) := by
  refine ⟨?_, ?_, ?_, ?_, ?_⟩
  · intro name docs id upd existing h
    simp [Update, h, manyMerged]
  · intro name filt upd pre id d post hpre hd
    induction pre with
    | nil => simp [UpdateMany, hd, manyMerged]
    | cons e tl ih =>
      obtain ⟨k2, v2⟩ := e
      have h2 : MatchesFilter v2 filt = false := hpre (k2, v2) (by simp)
      have ih2 := ih (fun e he => hpre e (by simp [he]))
      simp only [List.cons_append, UpdateMany, h2, Bool.false_eq_true, if_false,
        List.append_eq, ih2]
  · intro name docs id existing h
    simp [Delete, h]
  · intro name filt docs id tl h
    simp [DeleteMany, h, deleteManyLoop]
  · intro db name id d tlDocs h
    simp [DropCollection, h, dropLoop, Delete, getKey]

theorem c2_mutation_before_append_witness :
    Update false "c" [("u1", [("id", Value.str "u1")])] "u1" [("a", Value.num 1)] =
      ⟨setKey [("u1", [("id", Value.str "u1")])] "u1"
        (manyMerged [("a", Value.num 1)] "u1" [("id", Value.str "u1")]), [],
        .error .ioError⟩ ∧
    UpdateMany false "c" [] [("a", Value.num 1)] ([] ++ ("u1", [("id", Value.str "u1")]) :: []) =
      ⟨[] ++ ("u1", manyMerged [("a", Value.num 1)] "u1" [("id", Value.str "u1")]) :: [], [],
        0, some .ioError⟩ ∧
    Delete false "c" [("u1", [("id", Value.str "u1")])] "u1" =
      ⟨removeKey [("u1", [("id", Value.str "u1")])] "u1", [], .error .ioError⟩ ∧
    DeleteMany false "c" [] [("u1", [("id", Value.str "u1")])] =
      ⟨removeKey [("u1", [("id", Value.str "u1")])] "u1", [], 0, some .ioError⟩ ∧
    DropCollection false [("c", [("u1", [("id", Value.str "u1")])])] "c" =
      (setKey [("c", [("u1", [("id", Value.str "u1")])])] "c"
        (removeKey [("u1", [("id", Value.str "u1")])] "u1"), [], some .ioError) :=
  ⟨c2_mutation_before_append.1 "c" [("u1", [("id", Value.str "u1")])] "u1"
      [("a", Value.num 1)] [("id", Value.str "u1")] (by decide),
   c2_mutation_before_append.2.1 "c" [] [("a", Value.num 1)] [] "u1"
      [("id", Value.str "u1")] [] (by simp) (by decide),
   c2_mutation_before_append.2.2.1 "c" [("u1", [("id", Value.str "u1")])] "u1"
      [("id", Value.str "u1")] (by decide),
   c2_mutation_before_append.2.2.2.1 "c" [] [("u1", [("id", Value.str "u1")])] "u1" []
      (by decide),
   c2_mutation_before_append.2.2.2.2 [("c", [("u1", [("id", Value.str "u1")])])] "c" "u1"
      [("id", Value.str "u1")] [] (by decide)⟩

/-! ## Claim C7: the filter is a pure conjunction of equality tests -/

/-- C7: the empty filter matches every document; a non-empty filter matches
exactly when every filter key exists in the document with a matching value —
a pure conjunction, with no disjunction, negation or range operators. -/
theorem c7_matches_filter_conjunction :
    (∀ doc : Doc, MatchesFilter doc [] = true) ∧
    (∀ doc filt : Doc, MatchesFilter doc filt = true ↔
      ∀ kv ∈ filt, ∃ dv, getKey doc kv.1 = some dv ∧ valuesMatch dv kv.2 = true) := by
  constructor
  · intro doc
    rfl
  · intro doc filt
    unfold MatchesFilter
    rw [List.all_eq_true]
    constructor
    · intro h kv hkv
      have h2 := h kv hkv
      cases hg : getKey doc kv.1 with
      | none => rw [hg] at h2; exact absurd h2 (by simp)
      | some dv => exact ⟨dv, rfl, by rw [hg] at h2; exact h2⟩
    · intro h kv hkv
      obtain ⟨dv, hg, hm⟩ := h kv hkv
      rw [hg]
      exact hm

theorem c7_matches_filter_conjunction_witness :
    MatchesFilter [("name", Value.str "Alice"), ("role", Value.str "admin")] [] = true ∧
    MatchesFilter [("name", Value.str "Alice"), ("role", Value.str "admin")]
      [("name", Value.str "Alice"), ("role", Value.str "admin")] = true ∧
    MatchesFilter [("name", Value.str "Alice"), ("role", Value.str "admin")]
      [("name", Value.str "Alice"), ("role", Value.str "user")] = false :=
  ⟨c7_matches_filter_conjunction.1 _,
   (c7_matches_filter_conjunction.2 _ _).mpr (by decide),
   by
    cases hm : MatchesFilter [("name", Value.str "Alice"), ("role", Value.str "admin")]
      [("name", Value.str "Alice"), ("role", Value.str "user")] with
    | false => rfl
    | true =>
      have h2 := (c7_matches_filter_conjunction.2 _ _).mp hm
        ("role", Value.str "user") (by decide)
      obtain ⟨dv, hg, hv⟩ := h2
      have : dv = Value.str "admin" := by
        have : some dv = some (Value.str "admin") := by rw [← hg]; decide
        exact Option.some.inj this
      subst this
      exact absurd hv (by decide)⟩

/-! ## Claim C8: value equality with textual fallback -/

/-- C8 counterexample: the arrays `[1]` (numeric element) and `["1"]` (string
element) have the SAME shape and are not structurally equal, yet they match,
because `valuesMatch` applies the textual fallback unconditionally (both
format as `"[1]"`) — not only "when their shapes differ" as the claim
states. -/
theorem c8_counterexample :
    valuesMatch (.arr (.cons (.num 1) .nil)) (.arr (.cons (.str "1") .nil)) = true ∧
    ¬(Value.arr (.cons (.num 1) .nil) = Value.arr (.cons (.str "1") .nil) ∨
      (Value.kind (.arr (.cons (.num 1) .nil)) ≠ Value.kind (.arr (.cons (.str "1") .nil)) ∧
        (Value.arr (.cons (.num 1) .nil)).goFormat
          = (Value.arr (.cons (.str "1") .nil)).goFormat)) := by
  refine ⟨by decide, by decide⟩

/-- C8 amended: two values match if and only if they are structurally equal
under the document value model, or their canonical textual representations
(`%v` strings) are equal — the textual fallback applies whether or not the
shapes differ; in particular a numeric `25` matches the string `"25"`. -/
theorem c8_values_match_characterization :
    (∀ a b : Value, valuesMatch a b = true ↔ a = b ∨ a.goFormat = b.goFormat) ∧
    valuesMatch (.num 25) (.str "25") = true := by
  constructor
  · intro a b
    unfold valuesMatch
    by_cases h : a = b <;> simp [h]
  · decide

/-! ## Claim C3: identifier field versus map key -/

/-- C3 counterexample: inserting a document whose `id` field is the number
`25` stores it under the map key `"25"` (the `%v` string) while the stored
document's identifier field is still the number `25` — the identifier field
does not equal the map key. -/
theorem c3_counterexample :
    getKey (docsOf (runOps ([], []) [.ins "c" [("id", Value.num 25)] "g"]).1 "c") "25"
      = some [("id", Value.num 25)] ∧
    getKey [("id", Value.num 25)] "id" = some (Value.num 25) ∧
    Value.num 25 ≠ Value.str "25" := by
  refine ⟨by decide, by decide, by decide⟩

theorem docsOf_setKey (db : DBState) (n : String) (X : CollDocs) (c : String) :
    docsOf (setKey db n X) c = if n = c then X else docsOf db c := by
  unfold docsOf
  rw [getKey_setKey]
  by_cases h : n = c <;> simp [h]

theorem GetCollection_fst_docsOf (db : DBState) (c c2 : String) :
    docsOf (GetCollection db c).1 c2 = docsOf db c2 := by
  unfold GetCollection
  cases hg : getKey db c with
  | some docs => rfl
  | none =>
    simp only
    rw [docsOf_setKey]
    by_cases h : c = c2
    · subst h
      simp [docsOf, hg]
    · simp [h]

theorem GetCollection_snd (db : DBState) (c : String) :
    (GetCollection db c).2 = docsOf db c := by
  unfold GetCollection
  cases hg : getKey db c with
  | some docs => simp [docsOf, hg]
  | none => simp [docsOf, hg]

theorem insertStored_id (doc : Doc) (genId : String) :
    ∃ v, getKey (insertStored doc genId) "id" = some v ∧
      v.goFormat = insertKey doc genId := by
  unfold insertStored insertKey
  cases hg : getKey doc "id" with
  | some w => exact ⟨w, hg, rfl⟩
  | none =>
    refine ⟨.str genId, ?_, rfl⟩
    rw [getKey_setKey_self]

theorem getKey_manyMerged_id (upd : Doc) (id : String) (d : Doc) :
    getKey (manyMerged upd id d) "id" = some (.str id) := by
  unfold manyMerged
  rw [getKey_setKey_self]

theorem updateMany_getKey (name : String) (filt upd : Doc) (docs : CollDocs) (id : String) :
    getKey (UpdateMany true name filt upd docs).documents id =
      (getKey docs id).map
        (fun d => if MatchesFilter d filt then manyMerged upd id d else d) := by
  rw [updateMany_documents]
  exact getKey_map_entry docs (fun k d => if MatchesFilter d filt then manyMerged upd k d else d) id

theorem Insert_true_documents (name : String) (docs : CollDocs) (doc : Doc) (g : String)
    (hdup : getKey docs (insertKey doc g) = none) :
    (Insert true name docs doc g).documents
      = setKey docs (insertKey doc g) (insertStored doc g) := by
  simp [Insert, hdup]

theorem Insert_dup_documents (ok : Bool) (name : String) (docs : CollDocs) (doc : Doc)
    (g : String) (w : Doc) (hdup : getKey docs (insertKey doc g) = some w) :
    (Insert ok name docs doc g).documents = docs := by
  simp [Insert, hdup]

theorem Update_true_documents (name : String) (docs : CollDocs) (id : String) (u : Doc)
    (existing : Doc) (hex : getKey docs id = some existing) :
    (Update true name docs id u).documents = setKey docs id (manyMerged u id existing) := by
  simp [Update, hex, manyMerged]

theorem Update_notFound_documents (ok : Bool) (name : String) (docs : CollDocs) (id : String)
    (u : Doc) (hex : getKey docs id = none) :
    (Update ok name docs id u).documents = docs := by
  simp [Update, hex]

theorem Delete_true_documents (name : String) (docs : CollDocs) (id : String)
    (existing : Doc) (hex : getKey docs id = some existing) :
    (Delete true name docs id).documents = removeKey docs id := by
  simp [Delete, hex]

theorem Delete_notFound_documents (ok : Bool) (name : String) (docs : CollDocs) (id : String)
    (hex : getKey docs id = none) :
    (Delete ok name docs id).documents = docs := by
  simp [Delete, hex]

theorem idConsistent_applyOp (db : DBState) (op : Op) (h : IdConsistent db) :
    IdConsistent (applyOp db op).1 := by
  have hcoll : ∀ (c : String) (newDocs : CollDocs),
      (∀ id doc, getKey newDocs id = some doc →
        ∃ v, getKey doc "id" = some v ∧ v.goFormat = id) →
      IdConsistent (setKey (GetCollection db c).1 c newDocs) := by
    intro c newDocs hnew c2 id doc hget
    rw [docsOf_setKey] at hget
    by_cases hc : c = c2
    · rw [if_pos hc] at hget
      exact hnew id doc hget
    · rw [if_neg hc, GetCollection_fst_docsOf] at hget
      exact h c2 id doc hget
  cases op with
  | ins c doc g =>
    refine hcoll c _ ?_
    intro id d hget
    rw [GetCollection_snd] at hget
    cases hdup : getKey (docsOf db c) (insertKey doc g) with
    | some w =>
      rw [Insert_dup_documents true c _ doc g w hdup] at hget
      exact h c id d hget
    | none =>
      rw [Insert_true_documents c _ doc g hdup, getKey_setKey] at hget
      by_cases hk : insertKey doc g = id
      · rw [if_pos hk] at hget
        obtain ⟨v, hv, hfmt⟩ := insertStored_id doc g
        refine ⟨v, ?_, ?_⟩
        · rw [← Option.some.inj hget]; exact hv
        · rw [hfmt]; exact hk
      · rw [if_neg hk] at hget
        exact h c id d hget
  | upd c id2 u =>
    refine hcoll c _ ?_
    intro id d hget
    rw [GetCollection_snd] at hget
    cases hex : getKey (docsOf db c) id2 with
    | none =>
      rw [Update_notFound_documents true c _ id2 u hex] at hget
      exact h c id d hget
    | some existing =>
      rw [Update_true_documents c _ id2 u existing hex, getKey_setKey] at hget
      by_cases hk : id2 = id
      · rw [if_pos hk] at hget
        refine ⟨.str id2, ?_, hk⟩
        rw [← Option.some.inj hget]
        exact getKey_manyMerged_id u id2 existing
      · rw [if_neg hk] at hget
        exact h c id d hget
  | updMany c filt u =>
    refine hcoll c _ ?_
    intro id d hget
    rw [GetCollection_snd, updateMany_getKey] at hget
    cases hex : getKey (docsOf db c) id with
    | none => rw [hex] at hget; exact absurd hget (by simp)
    | some d0 =>
      rw [hex] at hget
      by_cases hm : MatchesFilter d0 filt
      · simp only [Option.map, Option.bind, hm, if_true] at hget
        refine ⟨.str id, ?_, rfl⟩
        rw [← Option.some.inj hget]
        exact getKey_manyMerged_id u id d0
      · simp only [Option.map, Option.bind] at hget
        rw [if_neg hm] at hget
        rw [← Option.some.inj hget]
        exact h c id d0 hex
  | del c id2 =>
    refine hcoll c _ ?_
    intro id d hget
    rw [GetCollection_snd] at hget
    cases hex : getKey (docsOf db c) id2 with
    | none =>
      rw [Delete_notFound_documents true c _ id2 hex] at hget
      exact h c id d hget
    | some existing =>
      rw [Delete_true_documents c _ id2 existing hex, getKey_removeKey] at hget
      by_cases hk : id2 = id
      · rw [if_pos hk] at hget; exact absurd hget (by simp)
      · rw [if_neg hk] at hget
        exact h c id d hget
  | delMany c filt =>
    refine hcoll c _ ?_
    intro id d hget
    unfold DeleteMany at hget
    rw [GetCollection_snd, deleteManyLoop_documents, getKey_foldl_removeKey] at hget
    by_cases hmem : id ∈ ((docsOf db c).filter (fun e => MatchesFilter e.2 filt)).map Prod.fst
    · rw [if_pos hmem] at hget; exact absurd hget (by simp)
    · rw [if_neg hmem] at hget
      exact h c id d hget

theorem idConsistent_runOps (ops : List Op) (db : DBState) (log : List StorageRecord)
    (h : IdConsistent db) : IdConsistent (runOps (db, log) ops).1 := by
  induction ops generalizing db log with
  | nil => exact h
  | cons op tl ih => exact ih (applyOp db op).1 _ (idConsistent_applyOp db op h)

/-- C3 amended: in every reachable collection state the stored document's
identifier field is present and its canonical `%v` string equals the map key
(for a non-string id value, e.g. numeric `25` under key `"25"`, the field is
not literally the key); and `Update` / `UpdateMany` never change a document's
id: the updated document stays under the same key with its identifier field
forced to exactly that key as a string, even if the payload carries a
different id value. -/
theorem c3_id_key_consistency :
    (∀ ops c id doc,
      getKey (docsOf (runOps ([], []) ops).1 c) id = some doc →
      ∃ v, getKey doc "id" = some v ∧ v.goFormat = id) ∧
    (∀ name docs id upd existing, getKey docs id = some existing →
      getKey (Update true name docs id upd).documents id = some (manyMerged upd id existing) ∧
      getKey (manyMerged upd id existing) "id" = some (.str id)) ∧
    (∀ name filt upd docs id d, getKey docs id = some d →
      getKey (UpdateMany true name filt upd docs).documents id
        = some (if MatchesFilter d filt then manyMerged upd id d else d) ∧
      getKey (manyMerged upd id d) "id" = some (.str id)) := by
  refine ⟨?_, ?_, ?_⟩
  · intro ops c id doc hget
    exact idConsistent_runOps ops [] [] (by intro c id doc h; simp [docsOf, getKey] at h)
      c id doc hget
  · intro name docs id upd existing hex
    constructor
    · unfold Update
      rw [hex]
      simp only [if_pos rfl]
      exact getKey_setKey_self docs id (manyMerged upd id existing)
    · exact getKey_manyMerged_id upd id existing
  · intro name filt upd docs id d hex
    constructor
    · rw [updateMany_getKey, hex]
      rfl
    · exact getKey_manyMerged_id upd id d

theorem c3_id_key_consistency_witness :
    (∃ v, getKey [("id", Value.num 25)] "id" = some v ∧ v.goFormat = "25") ∧
    getKey (Update true "c" [("u1", [("id", Value.str "u1")])] "u1"
        [("id", Value.str "EVIL"), ("a", Value.num 1)]).documents "u1"
      = some (manyMerged [("id", Value.str "EVIL"), ("a", Value.num 1)] "u1"
          [("id", Value.str "u1")]) ∧
    getKey (manyMerged [("id", Value.str "EVIL"), ("a", Value.num 1)] "u1"
        [("id", Value.str "u1")]) "id" = some (.str "u1") :=
  ⟨c3_id_key_consistency.1 [.ins "c" [("id", Value.num 25)] "g"] "c" "25"
      [("id", Value.num 25)] (by decide),
   (c3_id_key_consistency.2.1 "c" [("u1", [("id", Value.str "u1")])] "u1"
      [("id", Value.str "EVIL"), ("a", Value.num 1)] [("id", Value.str "u1")] (by decide)).1,
   (c3_id_key_consistency.2.1 "c" [("u1", [("id", Value.str "u1")])] "u1"
      [("id", Value.str "EVIL"), ("a", Value.num 1)] [("id", Value.str "u1")] (by decide)).2⟩

/-! ## Claim C10: lazily created empty collections are not persisted -/

theorem mem_keys_setKey {α : Type} (l : List (String × α)) (k k2 : String) (v : α) :
    k2 ∈ keys (setKey l k v) ↔ k2 ∈ keys l ∨ k2 = k := by
  cases hg : getKey l k with
  | none =>
    rw [keys_setKey_of_getKey_none l k v hg]
    simp
  | some w =>
    rw [keys_setKey_of_getKey_some l k v w hg]
    constructor
    · exact Or.inl
    · intro h
      rcases h with h | h
      · exact h
      · subst h
        by_contra hmem
        have hn := (getKey_eq_none_iff l k2).mpr hmem
        rw [hn] at hg
        exact Option.noConfusion hg

theorem not_mem_keys_foldl_replayStep (log : List StorageRecord) (T : DBState)
    (name : String) (hT : name ∉ keys T) (hlog : ∀ r ∈ log, r.collection ≠ name) :
    name ∉ keys (log.foldl replayStep T) := by
  induction log generalizing T with
  | nil => exact hT
  | cons r tl ih =>
    refine ih (replayStep T r) ?_ (fun r2 h2 => hlog r2 (by simp [h2]))
    have hr : r.collection ≠ name := hlog r (by simp)
    unfold replayStep
    cases r.doc with
    | none =>
      rw [mem_keys_setKey]
      rintro (h | h)
      · exact hT h
      · exact hr h.symm
    | some d =>
      rw [mem_keys_setKey]
      rintro (h | h)
      · exact hT h
      · exact hr h.symm

theorem keys_filter_sublist {α : Type} (l : List (String × α)) (p : String × α → Bool) :
    (keys (l.filter p)).Sublist (keys l) :=
  (l.filter_sublist).map Prod.fst

theorem getKey_statsPerCollection (db : DBState) (name : String) :
    getKey (statsPerCollection db) name = (getKey db name).map List.length := by
  induction db with
  | nil => simp [statsPerCollection, getKey]
  | cons e tl ih =>
    obtain ⟨k2, v2⟩ := e
    simp only [statsPerCollection] at ih
    by_cases h : k2 = name <;> simp [statsPerCollection, getKey, h, ih]

/-- C10: `GetCollection` on an unknown name immediately registers an empty
collection: the name shows up in `ListCollections` and is counted with
document count `0` in `Stats` (total document count unchanged); but since
nothing is appended to the log for it, replaying a log with no record for
that collection (as after `Close` and reopen) does not materialize it. -/
theorem c10_lazy_empty_collection (db : DBState) (log : List StorageRecord) (name : String)
    (h1 : getKey db name = none) (h2 : ∀ r ∈ log, r.collection ≠ name) :
    name ∈ ListCollections (GetCollection db name).1 ∧
    getKey (statsPerCollection (GetCollection db name).1) name = some 0 ∧
    statsCollections (GetCollection db name).1 = statsCollections db + 1 ∧
    statsDocuments (GetCollection db name).1 = statsDocuments db ∧
    (GetCollection db name).2 = [] ∧
    name ∉ ListCollections (loadFromDisk log) := by
  have hfst : (GetCollection db name).1 = db ++ [(name, [])] := by
    unfold GetCollection
    rw [h1]
    exact setKey_of_getKey_none db name [] h1
  have hnk : name ∉ keys db := (getKey_eq_none_iff db name).mp h1
  refine ⟨?_, ?_, ?_, ?_, ?_, ?_⟩
  · rw [hfst]
    simp [ListCollections]
  · rw [hfst]
    rw [getKey_statsPerCollection (db ++ [(name, [])]) name,
      getKey_append_left db [(name, [])] name hnk]
    simp [getKey]
  · rw [hfst]
    simp [statsCollections]
  · rw [hfst]
    simp [statsDocuments]
  · unfold GetCollection
    rw [h1]
  · unfold loadFromDisk ListCollections
    intro hmem
    have hsub : (keys ((log.foldl replayStep []).filter (fun e => !e.2.isEmpty))).Sublist
        (keys (log.foldl replayStep [])) := keys_filter_sublist _ _
    have : name ∈ keys (log.foldl replayStep []) := hsub.mem hmem
    exact not_mem_keys_foldl_replayStep log [] name (by simp [keys]) h2 this

theorem c10_lazy_empty_collection_witness :
    "b" ∈ ListCollections (GetCollection [("a", [("x", [("id", Value.str "x")])])] "b").1 ∧
    getKey (statsPerCollection
        (GetCollection [("a", [("x", [("id", Value.str "x")])])] "b").1) "b" = some 0 ∧
    statsCollections (GetCollection [("a", [("x", [("id", Value.str "x")])])] "b").1
      = statsCollections [("a", [("x", [("id", Value.str "x")])])] + 1 ∧
    statsDocuments (GetCollection [("a", [("x", [("id", Value.str "x")])])] "b").1
      = statsDocuments [("a", [("x", [("id", Value.str "x")])])] ∧
    (GetCollection [("a", [("x", [("id", Value.str "x")])])] "b").2 = [] ∧
    "b" ∉ ListCollections
        (loadFromDisk [⟨"a", "x", some [("id", Value.str "x")]⟩]) :=
  c10_lazy_empty_collection [("a", [("x", [("id", Value.str "x")])])]
    [⟨"a", "x", some [("id", Value.str "x")]⟩] "b" (by decide) (by decide)

/-! ## Claim C4: compaction replays to the snapshot state -/

theorem nodup_keys_replayStep (T : DBState) (r : StorageRecord)
    (h : (keys T).Nodup) : (keys (replayStep T r)).Nodup := by
  unfold replayStep
  cases r.doc with
  | none => exact nodup_keys_setKey T r.collection _ h
  | some d => exact nodup_keys_setKey T r.collection _ h

theorem nodup_keys_foldl_replayStep (log : List StorageRecord) (T : DBState)
    (h : (keys T).Nodup) : (keys (log.foldl replayStep T)).Nodup := by
  induction log generalizing T with
  | nil => exact h
  | cons r tl ih => exact ih (replayStep T r) (nodup_keys_replayStep T r h)

theorem docsOf_filter_isEmpty (T : DBState) (c : String) (h : (keys T).Nodup) :
    docsOf (T.filter (fun e => !e.2.isEmpty)) c = docsOf T c := by
  induction T with
  | nil => simp
  | cons e tl ih =>
    obtain ⟨k2, v2⟩ := e
    rw [keys_cons] at h
    have h2 := h.of_cons
    have hk2 : k2 ∉ keys tl := by
      intro hmem
      exact (List.nodup_cons.mp h).1 hmem
    by_cases hc : k2 = c
    · subst hc
      cases hv : v2.isEmpty
      · simp [docsOf, getKey, hv]
      · have hv2 : v2 = [] := by
          cases v2 with
          | nil => rfl
          | cons a b => simp [List.isEmpty] at hv
        subst hv2
        have hnone : getKey tl k2 = none := (getKey_eq_none_iff tl k2).mpr hk2
        have hfil : getKey (tl.filter (fun e => !e.2.isEmpty)) k2 = none := by
          rw [getKey_eq_none_iff]
          intro hmem
          exact hk2 ((keys_filter_sublist tl _).mem hmem)
        simp [docsOf, getKey, hnone, hfil]
    · cases hv : v2.isEmpty <;> simp [docsOf, getKey, hc, hv] <;>
        simpa [docsOf] using ih h2

/-- Rebuilding an association list by `setKey` folds: with globally distinct
keys the fold appends each entry verbatim. -/
theorem foldl_setKey_rebuild {α : Type} (l acc : List (String × α))
    (h : (keys (acc ++ l)).Nodup) :
    l.foldl (fun m p => setKey m p.1 p.2) acc = acc ++ l := by
  induction l generalizing acc with
  | nil => simp
  | cons p tl ih =>
    have hp : p.1 ∉ keys acc := by
      intro hmem
      have : (keys (acc ++ p :: tl)) = keys acc ++ p.1 :: keys tl := by
        simp [keys]
      rw [this] at h
      rcases List.disjoint_of_nodup_append h hmem with h2
      simp at h2
    have hset : setKey acc p.1 p.2 = acc ++ [p] := by
      rw [setKey_of_getKey_none acc p.1 p.2 ((getKey_eq_none_iff acc p.1).mpr hp)]
    have hass : (acc ++ [p]) ++ tl = acc ++ p :: tl := by simp
    have h2 : (keys ((acc ++ [p]) ++ tl)).Nodup := by rw [hass]; exact h
    calc (p :: tl).foldl (fun m p => setKey m p.1 p.2) acc
        = tl.foldl (fun m p => setKey m p.1 p.2) (acc ++ [p]) := by
          simp [List.foldl_cons, hset]
      _ = (acc ++ [p]) ++ tl := ih (acc ++ [p]) h2
      _ = acc ++ p :: tl := hass

/-- Replaying the compaction records of one collection: only that collection's
map changes, and it becomes the `setKey` fold of the entries. -/
theorem foldl_replayStep_oneColl (cname : String) (entries : List (String × Doc))
    (T : DBState) :
    (∀ c, docsOf ((entries.map
        (fun d => (⟨cname, d.1, some d.2⟩ : StorageRecord))).foldl replayStep T) c
      = if c = cname
        then entries.foldl (fun m p => setKey m p.1 p.2) (docsOf T cname)
        else docsOf T c) ∧
    (∀ x, x ≠ cname →
      getKey ((entries.map
        (fun d => (⟨cname, d.1, some d.2⟩ : StorageRecord))).foldl replayStep T) x
        = getKey T x) := by
  induction entries generalizing T with
  | nil =>
    refine ⟨fun c => ?_, fun x hx => rfl⟩
    by_cases hc : c = cname <;> simp [hc]
  | cons p tl ih =>
    have hstep : replayStep T ⟨cname, p.1, some p.2⟩
        = setKey T cname (setKey (docsOf T cname) p.1 p.2) := rfl
    constructor
    · intro c
      rw [List.map_cons, List.foldl_cons, hstep]
      rw [(ih (setKey T cname (setKey (docsOf T cname) p.1 p.2))).1 c]
      by_cases hc : c = cname
      · subst hc
        rw [if_pos rfl, if_pos rfl, docsOf_setKey]
        simp
      · rw [if_neg hc, if_neg hc, docsOf_setKey]
        rw [if_neg (fun h => hc h.symm)]
    · intro x hx
      rw [List.map_cons, List.foldl_cons, hstep]
      rw [(ih (setKey T cname (setKey (docsOf T cname) p.1 p.2))).2 x hx]
      rw [getKey_setKey]
      rw [if_neg (fun h => hx h.symm)]

theorem replay_compactRecords (db : DBState) (T : DBState)
    (hnd : (keys db).Nodup) (hcoll : ∀ e ∈ db, (keys e.2).Nodup)
    (hT : ∀ e ∈ db, getKey T e.1 = none) :
    ∀ c, docsOf ((compactRecords db).foldl replayStep T) c
      = if getKey db c = none then docsOf T c else docsOf db c := by
  induction db generalizing T with
  | nil => simp [compactRecords, getKey]
  | cons e tl ih =>
    obtain ⟨cname, entries⟩ := e
    intro c
    have hrec : compactRecords ((cname, entries) :: tl)
        = entries.map (fun d => (⟨cname, d.1, some d.2⟩ : StorageRecord))
          ++ compactRecords tl := by
      simp [compactRecords]
    rw [hrec, List.foldl_append]
    set T1 := (entries.map
      (fun d => (⟨cname, d.1, some d.2⟩ : StorageRecord))).foldl replayStep T with hT1
    have hTnone : getKey T cname = none := hT (cname, entries) (by simp)
    have hB : ∀ c2, docsOf T1 c2 = if c2 = cname then entries else docsOf T c2 := by
      intro c2
      rw [hT1, (foldl_replayStep_oneColl cname entries T).1 c2]
      by_cases hc2 : c2 = cname
      · rw [if_pos hc2, if_pos hc2]
        have hdocs : docsOf T cname = [] := by simp [docsOf, hTnone]
        rw [hdocs]
        have hr := foldl_setKey_rebuild entries ([] : CollDocs)
          (by simpa using hcoll (cname, entries) (by simp))
        simpa using hr
      · simp [hc2]
    rw [keys_cons] at hnd
    have hnd2 := List.nodup_cons.mp hnd
    have hT1none : ∀ e2 ∈ tl, getKey T1 e2.1 = none := by
      intro e2 he2
      have hne : e2.1 ≠ cname := by
        intro hh
        exact hnd2.1 (hh ▸ (List.mem_map.mpr ⟨e2, he2, rfl⟩))
      rw [hT1, (foldl_replayStep_oneColl cname entries T).2 e2.1 hne]
      exact hT e2 (List.mem_cons_of_mem _ he2)
    rw [ih T1 hnd2.2 (fun e2 he2 => hcoll e2 (List.mem_cons_of_mem _ he2)) hT1none c]
    by_cases hc : c = cname
    · have htl : getKey tl c = none := (getKey_eq_none_iff tl c).mpr (by
        rw [hc]
        exact hnd2.1)
      rw [htl, if_pos rfl, hB c, if_pos hc]
      simp [docsOf, getKey, hc]
    · have hhead : getKey ((cname, entries) :: tl) c = getKey tl c := by
        show (if cname = c then some entries else getKey tl c) = getKey tl c
        rw [if_neg (fun h => hc h.symm)]
      rw [hhead, hB c, if_neg hc]
      by_cases htl : getKey tl c = none
      · rw [if_pos htl, if_pos htl]
      · rw [if_neg htl, if_neg htl]
        unfold docsOf
        rw [hhead]

theorem length_compactRecords (db : DBState) :
    (compactRecords db).length = statsDocuments db := by
  induction db with
  | nil => simp [compactRecords, statsDocuments]
  | cons e tl ih =>
    simp [compactRecords, statsDocuments] at ih ⊢
    omega

/-- C4: the record set `Database.Compact` writes — one non-tombstone record
per currently-surviving document across all collections — replays, by the
`loadFromDisk` fold rule, to exactly the materialized per-collection state
the snapshot had, so reopening a database from the compacted file reproduces
the in-memory state.  (The hypotheses state that registry names and
per-collection ids are unique, which Go map semantics guarantee.) -/
theorem c4_compact_replay (db : DBState)
    (hnd : (keys db).Nodup) (hcoll : ∀ e ∈ db, (keys e.2).Nodup) :
    (∀ c, docsOf (loadFromDisk (compactRecords db)) c = docsOf db c) ∧
    (compactRecords db).length = statsDocuments db ∧
    (∀ r ∈ compactRecords db, r.doc ≠ none) := by
  refine ⟨?_, length_compactRecords db, ?_⟩
  · intro c
    unfold loadFromDisk
    rw [docsOf_filter_isEmpty _ c
      (nodup_keys_foldl_replayStep (compactRecords db) [] (by simp [keys]))]
    rw [replay_compactRecords db [] hnd hcoll (by intro e he; rfl) c]
    by_cases h : getKey db c = none
    · rw [if_pos h]
      simp [docsOf, getKey, h]
    · rw [if_neg h]
  · intro r hr
    unfold compactRecords at hr
    rw [List.mem_flatMap] at hr
    obtain ⟨e, he, hr2⟩ := hr
    rw [List.mem_map] at hr2
    obtain ⟨d, hd, rfl⟩ := hr2
    simp

theorem c4_compact_replay_witness :
    (∀ c, docsOf (loadFromDisk (compactRecords
        [("users", [("u1", [("id", Value.str "u1")]), ("u2", [("id", Value.str "u2")])]),
         ("posts", [("p1", [("id", Value.str "p1")])])])) c
      = docsOf
        [("users", [("u1", [("id", Value.str "u1")]), ("u2", [("id", Value.str "u2")])]),
         ("posts", [("p1", [("id", Value.str "p1")])])] c) ∧
    (compactRecords
        [("users", [("u1", [("id", Value.str "u1")]), ("u2", [("id", Value.str "u2")])]),
         ("posts", [("p1", [("id", Value.str "p1")])])]).length
      = statsDocuments
        [("users", [("u1", [("id", Value.str "u1")]), ("u2", [("id", Value.str "u2")])]),
         ("posts", [("p1", [("id", Value.str "p1")])])] ∧
    (∀ r ∈ compactRecords
        [("users", [("u1", [("id", Value.str "u1")]), ("u2", [("id", Value.str "u2")])]),
         ("posts", [("p1", [("id", Value.str "p1")])])], r.doc ≠ none) :=
  c4_compact_replay
    [("users", [("u1", [("id", Value.str "u1")]), ("u2", [("id", Value.str "u2")])]),
     ("posts", [("p1", [("id", Value.str "p1")])])]
    (by decide) (by decide)

/-! ## Claim C1: round-trip (replay reproduces the in-memory state) -/

theorem Insert_true_log (name : String) (docs : CollDocs) (doc : Doc) (g : String)
    (hdup : getKey docs (insertKey doc g) = none) :
    (Insert true name docs doc g).log
      = [⟨name, insertKey doc g, some (insertStored doc g)⟩] := by
  simp [Insert, hdup]

theorem Insert_dup_log (ok : Bool) (name : String) (docs : CollDocs) (doc : Doc)
    (g : String) (w : Doc) (hdup : getKey docs (insertKey doc g) = some w) :
    (Insert ok name docs doc g).log = [] := by
  simp [Insert, hdup]

theorem Update_true_log (name : String) (docs : CollDocs) (id : String) (u : Doc)
    (existing : Doc) (hex : getKey docs id = some existing) :
    (Update true name docs id u).log = [⟨name, id, some (manyMerged u id existing)⟩] := by
  simp [Update, hex, manyMerged]

theorem Update_notFound_log (ok : Bool) (name : String) (docs : CollDocs) (id : String)
    (u : Doc) (hex : getKey docs id = none) :
    (Update ok name docs id u).log = [] := by
  simp [Update, hex]

theorem Delete_true_log (name : String) (docs : CollDocs) (id : String)
    (existing : Doc) (hex : getKey docs id = some existing) :
    (Delete true name docs id).log = [⟨name, id, none⟩] := by
  simp [Delete, hex]

theorem Delete_notFound_log (ok : Bool) (name : String) (docs : CollDocs) (id : String)
    (hex : getKey docs id = none) :
    (Delete ok name docs id).log = [] := by
  simp [Delete, hex]

theorem deleteManyLoop_log (name : String) (ids : List String) (docs : CollDocs) :
    (deleteManyLoop true name ids docs).log
      = ids.map (fun id => (⟨name, id, none⟩ : StorageRecord)) := by
  induction ids generalizing docs with
  | nil => simp [deleteManyLoop]
  | cons id tl ih => simp [deleteManyLoop, ih]

theorem replayStep_docsOf (T : DBState) (r : StorageRecord) (x : String) :
    docsOf (replayStep T r) x
      = if r.collection = x
        then (match r.doc with
              | none => removeKey (docsOf T r.collection) r.id
              | some d => setKey (docsOf T r.collection) r.id d)
        else docsOf T x := by
  unfold replayStep
  cases r.doc <;> rw [docsOf_setKey] <;> rfl

theorem keys_map_entry {α β : Type} (l : List (String × α)) (g : String → α → β) :
    keys (l.map (fun e => (e.1, g e.1 e.2))) = keys l := by
  induction l with
  | nil => rfl
  | cons e tl ih =>
    simp only [List.map_cons, keys_cons]
    rw [ih]

theorem keys_updateMany (name : String) (filt upd : Doc) (docs : CollDocs) :
    keys ((UpdateMany true name filt upd docs).documents) = keys docs := by
  rw [updateMany_documents]
  exact keys_map_entry docs
    (fun k d => if MatchesFilter d filt then manyMerged upd k d else d)

theorem keys_foldl_removeKey_sublist {α : Type} (ids : List String)
    (docs : List (String × α)) :
    (keys (ids.foldl removeKey docs)).Sublist (keys docs) := by
  induction ids generalizing docs with
  | nil => simp
  | cons id tl ih =>
    exact (ih (removeKey docs id)).trans (keys_removeKey_sublist docs id)

theorem setKey_middle {α : Type} (pre tl : List (String × α)) (id : String) (d m : α)
    (hpre : id ∉ keys pre) :
    setKey (pre ++ (id, d) :: tl) id m = pre ++ (id, m) :: tl := by
  rw [setKey_append_of_not_mem pre _ id m hpre]
  simp [setKey]

/-- Replaying the records produced by a successful `UpdateMany` run over the
suffix `tl` of a collection whose full map is `pre ++ tl`. -/
theorem updateMany_replay (name : String) (filt u : Doc) :
    ∀ (tl pre : CollDocs) (T : DBState),
    docsOf T name = pre ++ tl → (keys (pre ++ tl)).Nodup →
    ∀ x, docsOf ((UpdateMany true name filt u tl).log.foldl replayStep T) x
      = if x = name then pre ++ (UpdateMany true name filt u tl).documents
        else docsOf T x := by
  intro tl
  induction tl with
  | nil =>
    intro pre T hdocs hnd x
    simp only [UpdateMany, List.foldl_nil]
    by_cases hx : x = name
    · rw [if_pos hx, hx, hdocs]
    · rw [if_neg hx]
  | cons e tl2 ih =>
    intro pre T hdocs hnd x
    obtain ⟨id, d⟩ := e
    have hpre : id ∉ keys pre := by
      intro hmem
      have hkeq : (keys (pre ++ (id, d) :: tl2)) = keys pre ++ id :: keys tl2 := by
        simp [keys]
      rw [hkeq] at hnd
      have hdis := List.disjoint_of_nodup_append hnd hmem
      simp at hdis
    by_cases hm : MatchesFilter d filt
    · have hstep : replayStep T ⟨name, id, some (setKey (mergeDoc d u) "id" (Value.str id))⟩
          = setKey T name
              (setKey (docsOf T name) id (setKey (mergeDoc d u) "id" (Value.str id))) := rfl
      have hT2 : docsOf (setKey T name
            (setKey (docsOf T name) id (setKey (mergeDoc d u) "id" (Value.str id)))) name
          = (pre ++ [(id, setKey (mergeDoc d u) "id" (Value.str id))]) ++ tl2 := by
        rw [docsOf_setKey, if_pos rfl, hdocs, setKey_middle pre tl2 id d _ hpre]
        simp
      have hnd2 : (keys ((pre ++ [(id, setKey (mergeDoc d u) "id" (Value.str id))])
          ++ tl2)).Nodup := by
        have hkeq : keys ((pre ++ [(id, setKey (mergeDoc d u) "id" (Value.str id))]) ++ tl2)
            = keys (pre ++ (id, d) :: tl2) := by simp [keys]
        rw [hkeq]
        exact hnd
      have hrest := ih (pre ++ [(id, setKey (mergeDoc d u) "id" (Value.str id))])
        (setKey T name
          (setKey (docsOf T name) id (setKey (mergeDoc d u) "id" (Value.str id))))
        hT2 hnd2 x
      simp only [UpdateMany, hm, if_true, List.foldl_cons]
      rw [hstep, hrest]
      by_cases hx : x = name
      · rw [if_pos hx, if_pos hx]
        simp
      · rw [if_neg hx, if_neg hx, docsOf_setKey,
          if_neg (show ¬(name = x) from fun hh => hx hh.symm)]
    · have hT2 : docsOf T name = (pre ++ [(id, d)]) ++ tl2 := by
        rw [hdocs]
        simp
      have hnd2 : (keys ((pre ++ [(id, d)]) ++ tl2)).Nodup := by
        have hkeq : keys ((pre ++ [(id, d)]) ++ tl2) = keys (pre ++ (id, d) :: tl2) := by
          simp [keys]
        rw [hkeq]
        exact hnd
      have hrest := ih (pre ++ [(id, d)]) T hT2 hnd2 x
      simp only [UpdateMany, hm, Bool.false_eq_true, if_false]
      rw [hrest]
      by_cases hx : x = name
      · rw [if_pos hx, if_pos hx]
        simp
      · rw [if_neg hx, if_neg hx]

/-- Replaying a run of tombstones removes exactly those ids from the record's
collection. -/
theorem tombstones_replay (name : String) :
    ∀ (ids : List String) (T : DBState) (x : String),
    docsOf ((ids.map (fun id => (⟨name, id, none⟩ : StorageRecord))).foldl replayStep T) x
      = if x = name then ids.foldl removeKey (docsOf T name) else docsOf T x := by
  intro ids
  induction ids with
  | nil =>
    intro T x
    by_cases hx : x = name
    · rw [if_pos hx, hx]
      rfl
    · rw [if_neg hx]
      rfl
  | cons id tl ih =>
    intro T x
    have hstep : replayStep T ⟨name, id, none⟩
        = setKey T name (removeKey (docsOf T name) id) := rfl
    simp only [List.map_cons, List.foldl_cons, hstep]
    rw [ih (setKey T name (removeKey (docsOf T name) id)) x]
    by_cases hx : x = name
    · rw [if_pos hx, if_pos hx, docsOf_setKey, if_pos rfl]
    · rw [if_neg hx, if_neg hx, docsOf_setKey,
        if_neg (show ¬(name = x) from fun hh => hx hh.symm)]

theorem applyOp_docsOf_helper (db T : DBState) (c : String) (newDocs : CollDocs)
    (recs : List StorageRecord)
    (h1 : ∀ x, docsOf T x = docsOf db x)
    (hrec : ∀ x, docsOf (recs.foldl replayStep T) x
        = if x = c then newDocs else docsOf T x) :
    ∀ x, docsOf (recs.foldl replayStep T) x
        = docsOf (setKey (GetCollection db c).1 c newDocs) x := by
  intro x
  rw [hrec x, docsOf_setKey]
  by_cases hx : c = x
  · rw [if_pos hx, if_pos hx.symm]
  · rw [if_neg hx, if_neg (show ¬(x = c) from fun hh => hx hh.symm),
      GetCollection_fst_docsOf, h1 x]

theorem applyOp_nodup_helper (db : DBState) (c : String) (newDocs : CollDocs)
    (h2 : ∀ x, (keys (docsOf db x)).Nodup) (hnew : (keys newDocs).Nodup) :
    ∀ x, (keys (docsOf (setKey (GetCollection db c).1 c newDocs) x)).Nodup := by
  intro x
  rw [docsOf_setKey]
  by_cases hx : c = x
  · rw [if_pos hx]
    exact hnew
  · rw [if_neg hx, GetCollection_fst_docsOf]
    exact h2 x

theorem replayInv_applyOp (db : DBState) (log : List StorageRecord) (op : Op)
    (h1 : ∀ c, docsOf (log.foldl replayStep []) c = docsOf db c)
    (h2 : ∀ c, (keys (docsOf db c)).Nodup) :
    (∀ c, docsOf ((log ++ (applyOp db op).2).foldl replayStep []) c
        = docsOf (applyOp db op).1 c) ∧
    (∀ c, (keys (docsOf (applyOp db op).1 c)).Nodup) := by
  have hsplit : ∀ recs : List StorageRecord,
      (log ++ recs).foldl replayStep ([] : DBState)
        = recs.foldl replayStep (log.foldl replayStep []) := by
    intro recs
    rw [List.foldl_append]
  cases op with
  | ins c doc g =>
    simp only [applyOp, GetCollection_snd]
    cases hdup : getKey (docsOf db c) (insertKey doc g) with
    | some w =>
      rw [Insert_dup_documents true c _ doc g w hdup, Insert_dup_log true c _ doc g w hdup]
      constructor
      · intro x
        rw [hsplit []]
        refine applyOp_docsOf_helper db _ c _ [] h1 ?_ x
        intro y
        rw [List.foldl_nil]
        by_cases hy : y = c
        · rw [if_pos hy, hy, h1 c]
        · rw [if_neg hy]
      · exact applyOp_nodup_helper db c _ h2 (h2 c)
    | none =>
      rw [Insert_true_documents c _ doc g hdup, Insert_true_log c _ doc g hdup]
      constructor
      · intro x
        rw [hsplit _]
        refine applyOp_docsOf_helper db _ c _ _ h1 ?_ x
        intro y
        simp only [List.foldl_cons, List.foldl_nil, replayStep_docsOf]
        by_cases hy : c = y
        · rw [if_pos hy, if_pos hy.symm, h1 c]
        · rw [if_neg hy, if_neg (show ¬(y = c) from fun hh => hy hh.symm)]
      · exact applyOp_nodup_helper db c _ h2 (nodup_keys_setKey _ _ _ (h2 c))
  | upd c id u =>
    simp only [applyOp, GetCollection_snd]
    cases hex : getKey (docsOf db c) id with
    | none =>
      rw [Update_notFound_documents true c _ id u hex, Update_notFound_log true c _ id u hex]
      constructor
      · intro x
        rw [hsplit []]
        refine applyOp_docsOf_helper db _ c _ [] h1 ?_ x
        intro y
        rw [List.foldl_nil]
        by_cases hy : y = c
        · rw [if_pos hy, hy, h1 c]
        · rw [if_neg hy]
      · exact applyOp_nodup_helper db c _ h2 (h2 c)
    | some existing =>
      rw [Update_true_documents c _ id u existing hex, Update_true_log c _ id u existing hex]
      constructor
      · intro x
        rw [hsplit _]
        refine applyOp_docsOf_helper db _ c _ _ h1 ?_ x
        intro y
        simp only [List.foldl_cons, List.foldl_nil, replayStep_docsOf]
        by_cases hy : c = y
        · rw [if_pos hy, if_pos hy.symm, h1 c]
        · rw [if_neg hy, if_neg (show ¬(y = c) from fun hh => hy hh.symm)]
      · exact applyOp_nodup_helper db c _ h2 (nodup_keys_setKey _ _ _ (h2 c))
  | updMany c filt u =>
    simp only [applyOp, GetCollection_snd]
    constructor
    · intro x
      rw [hsplit _]
      refine applyOp_docsOf_helper db _ c _ _ h1 ?_ x
      intro y
      have hrep := updateMany_replay c filt u (docsOf db c) [] (log.foldl replayStep [])
        (by simpa using h1 c) (by simpa using h2 c) y
      simpa using hrep
    · refine applyOp_nodup_helper db c _ h2 ?_
      rw [keys_updateMany]
      exact h2 c
  | del c id =>
    simp only [applyOp, GetCollection_snd]
    cases hex : getKey (docsOf db c) id with
    | none =>
      rw [Delete_notFound_documents true c _ id hex, Delete_notFound_log true c _ id hex]
      constructor
      · intro x
        rw [hsplit []]
        refine applyOp_docsOf_helper db _ c _ [] h1 ?_ x
        intro y
        rw [List.foldl_nil]
        by_cases hy : y = c
        · rw [if_pos hy, hy, h1 c]
        · rw [if_neg hy]
      · exact applyOp_nodup_helper db c _ h2 (h2 c)
    | some existing =>
      rw [Delete_true_documents c _ id existing hex, Delete_true_log c _ id existing hex]
      constructor
      · intro x
        rw [hsplit _]
        refine applyOp_docsOf_helper db _ c _ _ h1 ?_ x
        intro y
        simp only [List.foldl_cons, List.foldl_nil, replayStep_docsOf]
        by_cases hy : c = y
        · rw [if_pos hy, if_pos hy.symm, h1 c]
        · rw [if_neg hy, if_neg (show ¬(y = c) from fun hh => hy hh.symm)]
      · exact applyOp_nodup_helper db c _ h2 (nodup_keys_removeKey _ _ (h2 c))
  | delMany c filt =>
    simp only [applyOp, GetCollection_snd]
    constructor
    · intro x
      rw [hsplit _]
      refine applyOp_docsOf_helper db _ c _ _ h1 ?_ x
      intro y
      unfold DeleteMany
      rw [deleteManyLoop_log, deleteManyLoop_documents, tombstones_replay, h1 c]
    · refine applyOp_nodup_helper db c _ h2 ?_
      unfold DeleteMany
      rw [deleteManyLoop_documents]
      exact (h2 c).sublist (keys_foldl_removeKey_sublist _ _)

theorem replayInv_runOps (ops : List Op) :
    ∀ (db : DBState) (log : List StorageRecord),
    (∀ c, docsOf (log.foldl replayStep []) c = docsOf db c) →
    (∀ c, (keys (docsOf db c)).Nodup) →
    (∀ c, docsOf ((runOps (db, log) ops).2.foldl replayStep []) c
        = docsOf (runOps (db, log) ops).1 c) ∧
    (∀ c, (keys (docsOf (runOps (db, log) ops).1 c)).Nodup) := by
  induction ops with
  | nil =>
    intro db log h1 h2
    exact ⟨h1, h2⟩
  | cons op tl ih =>
    intro db log h1 h2
    have hstep := replayInv_applyOp db log op h1 h2
    have hrec := ih (applyOp db op).1 (log ++ (applyOp db op).2) hstep.1 hstep.2
    simpa [runOps] using hrec

/-- C1: after any finite sequence of engine calls against a freshly opened
database (every append succeeding; calls that fail with duplicate-key or
not-found errors change nothing), replaying the produced log with the
`loadFromDisk` fold — non-tombstone records set/overwrite, tombstones remove,
last record wins, in file order — yields for every collection exactly the
id-to-document map held in memory, so closing and reopening reproduces the
materialized state. -/
theorem c1_round_trip (ops : List Op) :
    ∀ c, docsOf (loadFromDisk (runOps ([], []) ops).2) c
      = docsOf (runOps ([], []) ops).1 c := by
  intro c
  have hinv := replayInv_runOps ops [] [] (fun c2 => rfl)
    (fun c2 => by simp [docsOf, getKey, keys])
  unfold loadFromDisk
  rw [docsOf_filter_isEmpty _ c
    (nodup_keys_foldl_replayStep _ [] (by simp [keys]))]
  exact hinv.1 c

/-! ## Claim C9: `SortDocuments`

Generic theory of the bounded bubble sort, for an abstract swap test. -/

section BubbleTheory

variable {α : Type}

theorem bubbleInner_perm (swap : α → α → Bool) :
    ∀ (f : Nat) (l : List α), (bubbleInner swap f l).Perm l := by
  intro f
  induction f with
  | zero => intro l; rfl
  | succ f2 ih =>
    intro l
    match l with
    | [] => rfl
    | [x] => rfl
    | x :: y :: tl =>
      by_cases h : swap x y
      · simp only [bubbleInner, h, if_true]
        exact ((ih (x :: tl)).cons y).trans (List.Perm.swap x y tl)
      · simp only [bubbleInner, h, Bool.false_eq_true, if_false]
        exact (ih (y :: tl)).cons x

theorem bubbleInner_length (swap : α → α → Bool) (f : Nat) (l : List α) :
    (bubbleInner swap f l).length = l.length :=
  (bubbleInner_perm swap f l).length_eq

theorem bubbleOuter_perm (swap : α → α → Bool) :
    ∀ (m : Nat) (l : List α), (bubbleOuter swap m l).Perm l := by
  intro m
  induction m with
  | zero => intro l; rfl
  | succ m2 ih =>
    intro l
    exact (ih (bubbleInner swap (m2 + 1) l)).trans (bubbleInner_perm swap (m2 + 1) l)

theorem bubbleOuter_length (swap : α → α → Bool) (m : Nat) (l : List α) :
    (bubbleOuter swap m l).length = l.length :=
  (bubbleOuter_perm swap m l).length_eq

theorem bubbleInner_split (swap : α → α → Bool) :
    ∀ (f : Nat) (l : List α),
    bubbleInner swap f l = bubbleInner swap f (l.take (f + 1)) ++ l.drop (f + 1) := by
  intro f
  induction f with
  | zero =>
    intro l
    match l with
    | [] => rfl
    | x :: tl => rfl
  | succ f2 ih =>
    intro l
    match l with
    | [] => rfl
    | [x] => rfl
    | x :: y :: tl =>
      by_cases h : swap x y
      · simp only [bubbleInner, h, if_true, List.take_succ_cons, List.drop_succ_cons]
        rw [ih (x :: tl)]
        simp [bubbleInner, h]
      · simp only [bubbleInner, h, Bool.false_eq_true, if_false, List.take_succ_cons,
          List.drop_succ_cons]
        rw [ih (y :: tl)]
        simp [bubbleInner, h]

theorem bubbleInner_congr (swap1 swap2 : α → α → Bool) :
    ∀ (f : Nat) (l : List α),
    (∀ a ∈ l, ∀ b ∈ l, swap1 a b = swap2 a b) →
    bubbleInner swap1 f l = bubbleInner swap2 f l := by
  intro f
  induction f with
  | zero => intro l hag; rfl
  | succ f2 ih =>
    intro l hag
    match l with
    | [] => rfl
    | [x] => rfl
    | x :: y :: tl =>
      have hxy : swap1 x y = swap2 x y := hag x (by simp) y (by simp)
      by_cases h : swap2 x y
      · simp only [bubbleInner, hxy, h, if_true]
        rw [ih (x :: tl)]
        intro a ha b hb
        exact hag a (by rcases List.mem_cons.mp ha with h2 | h2 <;> simp [h2]) b
          (by rcases List.mem_cons.mp hb with h2 | h2 <;> simp [h2])
      · simp only [bubbleInner, hxy, h, Bool.false_eq_true, if_false]
        rw [ih (y :: tl)]
        intro a ha b hb
        exact hag a (by rcases List.mem_cons.mp ha with h2 | h2 <;> simp [h2]) b
          (by rcases List.mem_cons.mp hb with h2 | h2 <;> simp [h2])

theorem bubbleOuter_congr (swap1 swap2 : α → α → Bool) :
    ∀ (m : Nat) (l : List α),
    (∀ a ∈ l, ∀ b ∈ l, swap1 a b = swap2 a b) →
    bubbleOuter swap1 m l = bubbleOuter swap2 m l := by
  intro m
  induction m with
  | zero => intro l hag; rfl
  | succ m2 ih =>
    intro l hag
    simp only [bubbleOuter]
    rw [bubbleInner_congr swap1 swap2 (m2 + 1) l hag]
    refine ih (bubbleInner swap2 (m2 + 1) l) ?_
    intro a ha b hb
    exact hag a ((bubbleInner_perm swap2 (m2 + 1) l).mem_iff.mp ha)
      b ((bubbleInner_perm swap2 (m2 + 1) l).mem_iff.mp hb)

theorem bubbleInner_map {β : Type} (swap : α → α → Bool) (f : β → α) :
    ∀ (fl : Nat) (l : List β),
    (bubbleInner (fun p q => swap (f p) (f q)) fl l).map f
      = bubbleInner swap fl (l.map f) := by
  intro fl
  induction fl with
  | zero => intro l; rfl
  | succ f2 ih =>
    intro l
    match l with
    | [] => rfl
    | [x] => rfl
    | x :: y :: tl =>
      by_cases h : swap (f x) (f y)
      · simp only [bubbleInner, h, if_true, List.map_cons]
        rw [ih (x :: tl)]
        rfl
      · simp only [bubbleInner, h, Bool.false_eq_true, if_false, List.map_cons]
        rw [ih (y :: tl)]
        rfl

theorem bubbleOuter_map {β : Type} (swap : α → α → Bool) (f : β → α) :
    ∀ (m : Nat) (l : List β),
    (bubbleOuter (fun p q => swap (f p) (f q)) m l).map f
      = bubbleOuter swap m (l.map f) := by
  intro m
  induction m with
  | zero => intro l; rfl
  | succ m2 ih =>
    intro l
    simp only [bubbleOuter]
    rw [ih, bubbleInner_map]

theorem bubbleInner_max (swap : α → α → Bool)
    (hA : ∀ a b, swap a b = true → swap b a = false)
    (hT : ∀ a b c, swap a b = false → swap b c = false → swap a c = false)
    (hI : ∀ a, swap a a = false) :
    ∀ (f : Nat) (l : List α), l.length ≤ f + 1 → l ≠ [] →
    ∃ l2 mx, bubbleInner swap f l = l2 ++ [mx] ∧ ∀ z ∈ l, swap z mx = false := by
  intro f
  induction f with
  | zero =>
    intro l hlen hne
    match l with
    | [] => exact absurd rfl hne
    | [x] =>
      refine ⟨[], x, rfl, ?_⟩
      intro z hz
      simp at hz
      subst hz
      exact hI z
    | x :: y :: tl => simp at hlen
  | succ f2 ih =>
    intro l hlen hne
    match l with
    | [] => exact absurd rfl hne
    | [x] =>
      refine ⟨[], x, rfl, ?_⟩
      intro z hz
      simp at hz
      subst hz
      exact hI z
    | x :: y :: tl =>
      by_cases h : swap x y
      · have hlen2 : (x :: tl).length ≤ f2 + 1 := by
          simp at hlen ⊢
          omega
        obtain ⟨l2, mx, heq, hmax⟩ := ih (x :: tl) hlen2 (by simp)
        refine ⟨y :: l2, mx, ?_, ?_⟩
        · simp only [bubbleInner, h, if_true, heq, List.cons_append]
        · intro z hz
          rcases List.mem_cons.mp hz with hz1 | hz2
          · subst hz1
            exact hmax z (by simp)
          · rcases List.mem_cons.mp hz2 with hz3 | hz4
            · subst hz3
              exact hT z x mx (hA x z h) (hmax x (by simp))
            · exact hmax z (by simp [hz4])
      · have hlen2 : (y :: tl).length ≤ f2 + 1 := by
          simp at hlen ⊢
          omega
        obtain ⟨l2, mx, heq, hmax⟩ := ih (y :: tl) hlen2 (by simp)
        refine ⟨x :: l2, mx, ?_, ?_⟩
        · simp only [bubbleInner, h, Bool.false_eq_true, if_false, heq, List.cons_append]
        · intro z hz
          rcases List.mem_cons.mp hz with hz1 | hz2
          · subst hz1
            exact hT z y mx (Bool.eq_false_iff.mpr h) (hmax y (by simp))
          · exact hmax z hz2

theorem bubbleOuter_sorted_aux (swap : α → α → Bool)
    (hA : ∀ a b, swap a b = true → swap b a = false)
    (hT : ∀ a b c, swap a b = false → swap b c = false → swap a c = false)
    (hI : ∀ a, swap a a = false) :
    ∀ (m : Nat) (l : List α),
    List.Pairwise (fun a b => swap a b = false) (l.drop (m + 1)) →
    (∀ x ∈ l.take (m + 1), ∀ y ∈ l.drop (m + 1), swap x y = false) →
    List.Pairwise (fun a b => swap a b = false) (bubbleOuter swap m l) := by
  intro m
  induction m with
  | zero =>
    intro l hQ1 hQ2
    match l with
    | [] => exact List.Pairwise.nil
    | a :: tl =>
      refine List.Pairwise.cons ?_ (by simpa using hQ1)
      intro b hb
      exact hQ2 a (by simp) b (by simpa using hb)
  | succ m2 ih =>
    intro l hQ1 hQ2
    show List.Pairwise _ (bubbleOuter swap m2 (bubbleInner swap (m2 + 1) l))
    by_cases hshort : l.length ≤ m2 + 1
    · have hd : (bubbleInner swap (m2 + 1) l).drop (m2 + 1) = [] :=
        List.drop_eq_nil_of_le (by rw [bubbleInner_length]; omega)
      refine ih (bubbleInner swap (m2 + 1) l) ?_ ?_
      · rw [hd]
        exact List.Pairwise.nil
      · intro x hx y hy
        rw [hd] at hy
        simp at hy
    · have hlong : m2 + 2 ≤ l.length := by omega
      have hAlen : (l.take (m2 + 2)).length = m2 + 2 := by
        rw [List.length_take]
        omega
      have hsplit := bubbleInner_split swap (m2 + 1) l
      obtain ⟨l2, mx, heq, hmax⟩ := bubbleInner_max swap hA hT hI (m2 + 1)
        (l.take (m2 + 2)) (by omega) (by
          intro hnil
          rw [hnil] at hAlen
          simp at hAlen)
      have hl2len : l2.length = m2 + 1 := by
        have := bubbleInner_length swap (m2 + 1) (l.take (m2 + 2))
        rw [heq, hAlen] at this
        simp at this
        omega
      have hres : bubbleInner swap (m2 + 1) l = l2 ++ (mx :: l.drop (m2 + 2)) := by
        rw [hsplit, heq]
        simp
      have hmxA : mx ∈ l.take (m2 + 2) := by
        refine ((bubbleInner_perm swap (m2 + 1) (l.take (m2 + 2))).mem_iff).mp ?_
        rw [heq]
        simp
      have hdrop : (bubbleInner swap (m2 + 1) l).drop (m2 + 1) = mx :: l.drop (m2 + 2) := by
        rw [hres, ← hl2len, List.drop_left]
      have htake : (bubbleInner swap (m2 + 1) l).take (m2 + 1) = l2 := by
        rw [hres, ← hl2len, List.take_left]
      refine ih (bubbleInner swap (m2 + 1) l) ?_ ?_
      · rw [hdrop]
        refine List.Pairwise.cons ?_ hQ1
        intro y hy
        exact hQ2 mx hmxA y hy
      · intro x hx y hy
        rw [htake] at hx
        rw [hdrop] at hy
        have hxA : x ∈ l.take (m2 + 2) := by
          refine ((bubbleInner_perm swap (m2 + 1) (l.take (m2 + 2))).mem_iff).mp ?_
          rw [heq]
          simp [hx]
        rcases List.mem_cons.mp hy with hy1 | hy2
        · subst hy1
          exact hmax x hxA
        · exact hQ2 x hxA y hy2

theorem bubbleOuter_sorted (swap : α → α → Bool)
    (hA : ∀ a b, swap a b = true → swap b a = false)
    (hT : ∀ a b c, swap a b = false → swap b c = false → swap a c = false)
    (hI : ∀ a, swap a a = false) (l : List α) :
    List.Pairwise (fun a b => swap a b = false) (bubbleOuter swap (l.length - 1) l) := by
  have hd : l.drop (l.length - 1 + 1) = [] := List.drop_eq_nil_of_le (by omega)
  refine bubbleOuter_sorted_aux swap hA hT hI (l.length - 1) l ?_ ?_
  · rw [hd]
    exact List.Pairwise.nil
  · intro x hx y hy
    rw [hd] at hy
    simp at hy

theorem bubbleInner_pairwise_pres (swap : α → α → Bool) (R : α → α → Prop)
    (hR : ∀ a b, swap a b = true → R b a) :
    ∀ (f : Nat) (l : List α), List.Pairwise R l → List.Pairwise R (bubbleInner swap f l) := by
  intro f
  induction f with
  | zero => intro l h; exact h
  | succ f2 ih =>
    intro l h
    match l with
    | [] => exact h
    | [x] => exact h
    | x :: y :: tl =>
      rcases List.pairwise_cons.mp h with ⟨hx, hrest⟩
      rcases List.pairwise_cons.mp hrest with ⟨hy, htl⟩
      by_cases hs : swap x y
      · simp only [bubbleInner, hs, if_true]
        refine List.Pairwise.cons ?_ ?_
        · intro z hz
          have hz2 : z ∈ x :: tl :=
            ((bubbleInner_perm swap f2 (x :: tl)).mem_iff).mp hz
          rcases List.mem_cons.mp hz2 with hz3 | hz4
          · subst hz3
            exact hR _ _ hs
          · exact hy z hz4
        · refine ih (x :: tl) ?_
          exact List.Pairwise.cons (fun z hz => hx z (by simp [hz])) htl
      · simp only [bubbleInner, hs, Bool.false_eq_true, if_false]
        refine List.Pairwise.cons ?_ ?_
        · intro z hz
          have hz2 : z ∈ y :: tl :=
            ((bubbleInner_perm swap f2 (y :: tl)).mem_iff).mp hz
          exact hx z hz2
        · exact ih (y :: tl) hrest

theorem bubbleOuter_pairwise_pres (swap : α → α → Bool) (R : α → α → Prop)
    (hR : ∀ a b, swap a b = true → R b a) :
    ∀ (m : Nat) (l : List α), List.Pairwise R l → List.Pairwise R (bubbleOuter swap m l) := by
  intro m
  induction m with
  | zero => intro l h; exact h
  | succ m2 ih =>
    intro l h
    exact ih (bubbleInner swap (m2 + 1) l) (bubbleInner_pairwise_pres swap R hR (m2 + 1) l h)

theorem bubbleInner_fixed (swap : α → α → Bool) (P : α → Bool)
    (hP : ∀ a b, swap a b = true → P a = true ∧ P b = true) :
    ∀ (f : Nat) (l : List α) (i : Nat) (d : α),
    l[i]? = some d → P d = false → (bubbleInner swap f l)[i]? = some d := by
  intro f
  induction f with
  | zero => intro l i d hget hPd; exact hget
  | succ f2 ih =>
    intro l i d hget hPd
    match l with
    | [] => exact hget
    | [x] => exact hget
    | x :: y :: tl =>
      by_cases hs : swap x y
      · simp only [bubbleInner, hs, if_true]
        match i with
        | 0 =>
          simp at hget
          subst hget
          rw [(hP x y hs).1] at hPd
          exact absurd hPd (by simp)
        | i2 + 1 =>
          simp only [List.getElem?_cons_succ] at hget ⊢
          match i2, hget with
          | 0, hget =>
            simp at hget
            subst hget
            rw [(hP x y hs).2] at hPd
            exact absurd hPd (by simp)
          | i3 + 1, hget =>
            refine ih (x :: tl) (i3 + 1) d ?_ hPd
            simpa using hget
      · simp only [bubbleInner, hs, Bool.false_eq_true, if_false]
        match i with
        | 0 => simpa using hget
        | i2 + 1 =>
          simp only [List.getElem?_cons_succ] at hget ⊢
          exact ih (y :: tl) i2 d hget hPd

theorem bubbleOuter_fixed (swap : α → α → Bool) (P : α → Bool)
    (hP : ∀ a b, swap a b = true → P a = true ∧ P b = true) :
    ∀ (m : Nat) (l : List α) (i : Nat) (d : α),
    l[i]? = some d → P d = false → (bubbleOuter swap m l)[i]? = some d := by
  intro m
  induction m with
  | zero => intro l i d hget hPd; exact hget
  | succ m2 ih =>
    intro l i d hget hPd
    exact ih (bubbleInner swap (m2 + 1) l) i d
      (bubbleInner_fixed swap P hP (m2 + 1) l i d hget hPd) hPd

end BubbleTheory

theorem compareValues_num_pos (q1 q2 : Rat) :
    compareValues (.num q1) (.num q2) > 0 ↔ q2 < q1 := by
  show (if q1 < q2 then (-1 : Int) else if q1 > q2 then 1 else 0) > 0 ↔ q2 < q1
  by_cases h : q1 < q2
  · simp [h, le_of_lt h]
  · by_cases h2 : q2 < q1
    · simp [h, h2]
    · simp [h, h2]

theorem compareValues_num_neg (q1 q2 : Rat) :
    compareValues (.num q1) (.num q2) < 0 ↔ q1 < q2 := by
  show (if q1 < q2 then (-1 : Int) else if q1 > q2 then 1 else 0) < 0 ↔ q1 < q2
  by_cases h : q1 < q2
  · simp [h]
  · by_cases h2 : q2 < q1
    · simp [h, h2]
    · simp [h, h2]

theorem compareValues_num_le (q1 q2 : Rat) :
    compareValues (.num q1) (.num q2) ≤ 0 ↔ q1 ≤ q2 := by
  show (if q1 < q2 then (-1 : Int) else if q1 > q2 then 1 else 0) ≤ 0 ↔ q1 ≤ q2
  by_cases h : q1 < q2
  · simp [h, le_of_lt h]
  · by_cases h2 : q2 < q1
    · simp [h, h2, not_le.mpr h2]
    · simp [h, h2, le_of_not_lt h2]

theorem compareValues_num_ge (q1 q2 : Rat) :
    compareValues (.num q1) (.num q2) ≥ 0 ↔ q2 ≤ q1 := by
  show (if q1 < q2 then (-1 : Int) else if q1 > q2 then 1 else 0) ≥ 0 ↔ q2 ≤ q1
  by_cases h : q1 < q2
  · simp [h, not_le.mpr h]
  · by_cases h2 : q2 < q1
    · simp [h, h2, le_of_lt h2]
    · simp [h, h2, le_of_not_lt h]

theorem sortSwap_isSome (field dir : String) (d1 d2 : Doc)
    (h : sortSwap field dir d1 d2 = true) :
    (getKey d1 field).isSome = true ∧ (getKey d2 field).isSome = true := by
  unfold sortSwap at h
  cases h1 : getKey d1 field with
  | none => rw [h1] at h; exact absurd h (by simp)
  | some v1 =>
    cases h2 : getKey d2 field with
    | none => rw [h1, h2] at h; exact absurd h (by simp)
    | some v2 => simp

theorem sortSwap_asc_agree (field : String) (d1 d2 : Doc)
    (h1 : ∃ q, getKey d1 field = some (.num q))
    (h2 : ∃ q, getKey d2 field = some (.num q)) :
    sortSwap field "asc" d1 d2 = decide (numKey field d2 < numKey field d1) := by
  obtain ⟨q1, h1⟩ := h1
  obtain ⟨q2, h2⟩ := h2
  have hk1 : numKey field d1 = q1 := by simp [numKey, h1]
  have hk2 : numKey field d2 = q2 := by simp [numKey, h2]
  rw [hk1, hk2]
  simp only [sortSwap, h1, h2]
  rw [if_neg (by decide)]
  exact decide_eq_decide.mpr (compareValues_num_pos q1 q2)

theorem sortSwap_desc_agree (field : String) (d1 d2 : Doc)
    (h1 : ∃ q, getKey d1 field = some (.num q))
    (h2 : ∃ q, getKey d2 field = some (.num q)) :
    sortSwap field "desc" d1 d2 = decide (numKey field d1 < numKey field d2) := by
  obtain ⟨q1, h1⟩ := h1
  obtain ⟨q2, h2⟩ := h2
  have hk1 : numKey field d1 = q1 := by simp [numKey, h1]
  have hk2 : numKey field d2 = q2 := by simp [numKey, h2]
  rw [hk1, hk2]
  simp only [sortSwap, h1, h2, eq_self_iff_true, if_true]
  exact decide_eq_decide.mpr (compareValues_num_neg q1 q2)

theorem keySwap_asc_sorted {α β : Type} [LinearOrder β] (k : α → β) (l : List α) :
    List.Pairwise (fun a b => decide (k b < k a) = false)
      (bubbleOuter (fun a b => decide (k b < k a)) (l.length - 1) l) := by
  refine bubbleOuter_sorted _ ?_ ?_ ?_ l
  · intro a b h
    simp at h ⊢
    exact le_of_lt h
  · intro a b c h1 h2
    simp at h1 h2 ⊢
    exact h1.trans h2
  · intro a
    simp

theorem keySwap_desc_sorted {α β : Type} [LinearOrder β] (k : α → β) (l : List α) :
    List.Pairwise (fun a b => decide (k a < k b) = false)
      (bubbleOuter (fun a b => decide (k a < k b)) (l.length - 1) l) := by
  refine bubbleOuter_sorted _ ?_ ?_ ?_ l
  · intro a b h
    simp at h ⊢
    exact le_of_lt h
  · intro a b c h1 h2
    simp at h1 h2 ⊢
    exact h2.trans h1
  · intro a
    simp

theorem mem_enumFrom_le {α : Type} :
    ∀ (n : Nat) (l : List α) (p : Nat × α), p ∈ List.enumFrom n l → n ≤ p.1 := by
  intro n l
  induction l generalizing n with
  | nil => intro p hp; simp [List.enumFrom] at hp
  | cons x tl ih =>
    intro p hp
    rcases List.mem_cons.mp hp with h | h
    · subst h
      exact le_refl n
    · exact (Nat.le_succ n).trans (ih (n + 1) p h)

theorem pairwise_enumFrom_lt {α : Type} :
    ∀ (n : Nat) (l : List α), (List.enumFrom n l).Pairwise (fun p q => p.1 < q.1) := by
  intro n l
  induction l generalizing n with
  | nil => exact List.Pairwise.nil
  | cons x tl ih =>
    refine List.Pairwise.cons ?_ (ih (n + 1))
    intro q hq
    exact Nat.lt_of_lt_of_le (Nat.lt_succ_self n) (mem_enumFrom_le (n + 1) tl q hq)

/-- C9 counterexample: with field values `10`, `"10"`, `9` — every document
contains the field — the bubble sort leaves the list unchanged (`10` matches
`"10"` textually and `"10" < "9"` as strings), so the result keeps numeric
`10` before numeric `9` even though `compareValues` orders them the other
way: the output is not ordered ascending. -/
theorem c9_counterexample :
    SortDocuments [[("f", Value.num 10)], [("f", Value.str "10")], [("f", Value.num 9)]]
        "f" "asc"
      = [[("f", Value.num 10)], [("f", Value.str "10")], [("f", Value.num 9)]] ∧
    (∀ d ∈ [[("f", Value.num 10)], [("f", Value.str "10")], [("f", Value.num 9)]],
      (getKey d "f").isSome = true) ∧
    compareValues (Value.num 10) (Value.num 9) > 0 := by
  refine ⟨by decide, by decide, by decide⟩

/-- C9 amended: `SortDocuments` permutes the list; a document lacking the sort
field keeps its exact position (comparisons touching it cause no swap); ties
never reorder (stability, shown on the index-tagged run, whose projection is
the sort itself); and — provided the occurring field values compare
consistently, here: all numeric — the result is ordered ascending for `"asc"`
and descending for `"desc"` under `compareValues` (numeric when both sides
are numbers, else lexicographic on their `%v` strings).  For mixed
value types the comparator is not transitive and the output need not be
totally ordered. -/
theorem c9_sort_documents :
    (∀ (docs : List Doc) (field dir : String),
      (SortDocuments docs field dir).Perm docs) ∧
    (∀ (docs : List Doc) (field dir : String) (i : Nat) (d : Doc),
      docs[i]? = some d → getKey d field = none →
      (SortDocuments docs field dir)[i]? = some d) ∧
    (∀ (docs : List Doc) (field : String),
      (∀ d ∈ docs, ∃ q, getKey d field = some (.num q)) →
      List.Pairwise (fun d1 d2 =>
        compareValues ((getKey d1 field).getD .null) ((getKey d2 field).getD .null) ≤ 0)
        (SortDocuments docs field "asc")) ∧
    (∀ (docs : List Doc) (field : String),
      (∀ d ∈ docs, ∃ q, getKey d field = some (.num q)) →
      List.Pairwise (fun d1 d2 =>
        compareValues ((getKey d1 field).getD .null) ((getKey d2 field).getD .null) ≥ 0)
        (SortDocuments docs field "desc")) ∧
    (∀ (docs : List Doc) (field dir : String),
      (bubbleOuter (fun p q : Nat × Doc => sortSwap field dir p.2 q.2)
          (docs.length - 1) docs.enum).map Prod.snd = SortDocuments docs field dir ∧
      List.Pairwise (fun p q =>
          (sortSwap field dir p.2 q.2 = false ∧ sortSwap field dir q.2 p.2 = false) →
            p.1 < q.1)
        (bubbleOuter (fun p q : Nat × Doc => sortSwap field dir p.2 q.2)
          (docs.length - 1) docs.enum)) := by
  refine ⟨?_, ?_, ?_, ?_, ?_⟩
  · intro docs field dir
    exact bubbleOuter_perm (sortSwap field dir) (docs.length - 1) docs
  · intro docs field dir i d hget hnone
    refine bubbleOuter_fixed (sortSwap field dir) (fun d2 => (getKey d2 field).isSome)
      (fun a b h => sortSwap_isSome field dir a b h) (docs.length - 1) docs i d hget ?_
    show (getKey d field).isSome = false
    rw [hnone]
    rfl
  · intro docs field hnum
    have hcongr : SortDocuments docs field "asc"
        = bubbleOuter (fun d1 d2 => decide (numKey field d2 < numKey field d1))
            (docs.length - 1) docs := by
      unfold SortDocuments
      exact bubbleOuter_congr _ _ (docs.length - 1) docs
        (fun a ha b hb => sortSwap_asc_agree field a b (hnum a ha) (hnum b hb))
    rw [hcongr]
    have hsorted := keySwap_asc_sorted (numKey field) docs
    refine List.Pairwise.imp_of_mem ?_ hsorted
    intro d1 d2 hm1 hm2 hr
    have hd1 : d1 ∈ docs :=
      ((bubbleOuter_perm _ (docs.length - 1) docs).mem_iff).mp hm1
    have hd2 : d2 ∈ docs :=
      ((bubbleOuter_perm _ (docs.length - 1) docs).mem_iff).mp hm2
    obtain ⟨q1, hq1⟩ := hnum d1 hd1
    obtain ⟨q2, hq2⟩ := hnum d2 hd2
    rw [hq1, hq2]
    simp only [Option.getD_some]
    rw [compareValues_num_le]
    have hk1 : numKey field d1 = q1 := by simp [numKey, hq1]
    have hk2 : numKey field d2 = q2 := by simp [numKey, hq2]
    simp at hr
    rw [hk1, hk2] at hr
    exact hr
  · intro docs field hnum
    have hcongr : SortDocuments docs field "desc"
        = bubbleOuter (fun d1 d2 => decide (numKey field d1 < numKey field d2))
            (docs.length - 1) docs := by
      unfold SortDocuments
      exact bubbleOuter_congr _ _ (docs.length - 1) docs
        (fun a ha b hb => sortSwap_desc_agree field a b (hnum a ha) (hnum b hb))
    rw [hcongr]
    have hsorted := keySwap_desc_sorted (numKey field) docs
    refine List.Pairwise.imp_of_mem ?_ hsorted
    intro d1 d2 hm1 hm2 hr
    have hd1 : d1 ∈ docs :=
      ((bubbleOuter_perm _ (docs.length - 1) docs).mem_iff).mp hm1
    have hd2 : d2 ∈ docs :=
      ((bubbleOuter_perm _ (docs.length - 1) docs).mem_iff).mp hm2
    obtain ⟨q1, hq1⟩ := hnum d1 hd1
    obtain ⟨q2, hq2⟩ := hnum d2 hd2
    rw [hq1, hq2]
    simp only [Option.getD_some]
    rw [compareValues_num_ge]
    have hk1 : numKey field d1 = q1 := by simp [numKey, hq1]
    have hk2 : numKey field d2 = q2 := by simp [numKey, hq2]
    simp at hr
    rw [hk1, hk2] at hr
    exact hr
  · intro docs field dir
    constructor
    · rw [bubbleOuter_map (sortSwap field dir) Prod.snd (docs.length - 1) docs.enum,
        List.enum_map_snd]
      rfl
    · refine bubbleOuter_pairwise_pres _ _ ?_ (docs.length - 1) docs.enum ?_
      · intro p q h
        intro hcontra
        rw [h] at hcontra
        exact absurd hcontra.2 (by simp)
      · refine List.Pairwise.imp ?_ (pairwise_enumFrom_lt 0 docs)
        intro p q h
        exact fun _ => h

theorem c9_sort_documents_witness :
    (SortDocuments [[("f", Value.num 10)], [("f", Value.num 9)]] "f" "asc").Perm
      [[("f", Value.num 10)], [("f", Value.num 9)]] ∧
    (SortDocuments [[("g", Value.num 1)], [("f", Value.num 9)]] "f" "asc")[0]?
      = some [("g", Value.num 1)] ∧
    List.Pairwise (fun d1 d2 =>
        compareValues ((getKey d1 "f").getD .null) ((getKey d2 "f").getD .null) ≤ 0)
      (SortDocuments [[("f", Value.num 10)], [("f", Value.num 9)]] "f" "asc") ∧
    List.Pairwise (fun d1 d2 =>
        compareValues ((getKey d1 "f").getD .null) ((getKey d2 "f").getD .null) ≥ 0)
      (SortDocuments [[("f", Value.num 10)], [("f", Value.num 9)]] "f" "desc") ∧
    List.Pairwise (fun p q =>
        (sortSwap "f" "asc" p.2 q.2 = false ∧ sortSwap "f" "asc" q.2 p.2 = false) →
          p.1 < q.1)
      (bubbleOuter (fun p q : Nat × Doc => sortSwap "f" "asc" p.2 q.2)
        (([[("f", Value.num 10)], [("f", Value.num 9)]] : List Doc).length - 1)
        ([[("f", Value.num 10)], [("f", Value.num 9)]] : List Doc).enum) :=
  ⟨c9_sort_documents.1 [[("f", Value.num 10)], [("f", Value.num 9)]] "f" "asc",
   c9_sort_documents.2.1 [[("g", Value.num 1)], [("f", Value.num 9)]] "f" "asc" 0
     [("g", Value.num 1)] (by decide) (by decide),
   c9_sort_documents.2.2.1 [[("f", Value.num 10)], [("f", Value.num 9)]] "f" (by
     intro d hd
     rcases List.mem_cons.mp hd with h | h
     · exact ⟨10, by rw [h]; decide⟩
     · rcases List.mem_cons.mp h with h2 | h2
       · exact ⟨9, by rw [h2]; decide⟩
       · simp at h2),
   c9_sort_documents.2.2.2.1 [[("f", Value.num 10)], [("f", Value.num 9)]] "f" (by
     intro d hd
     rcases List.mem_cons.mp hd with h | h
     · exact ⟨10, by rw [h]; decide⟩
     · rcases List.mem_cons.mp h with h2 | h2
       · exact ⟨9, by rw [h2]; decide⟩
       · simp at h2),
   (c9_sort_documents.2.2.2.2 [[("f", Value.num 10)], [("f", Value.num 9)]] "f" "asc").2⟩

end TetoDB
